import Mathlib

/-!
Verification development for the mac-mouse-fix-scripts localization core.

The Python sources (src/Shared/mflocales.py, src/Shared/mfutils.py,
src/StringsSync/syncstrings.py, src/MarkdownBuild/buildmd.py) are shallowly
embedded below.  Strings are modelled as `List Char`; Python dictionaries as
association lists preserving insertion order; functions that can raise
(assert failures, KeyError, ZeroDivisionError) return `Option`/`Except`.
Recursions that Python expresses with unbounded loops are given an explicit
fuel argument that is always sufficient (proved where a theorem needs it);
float division is modelled exactly over `ℚ`.
-/

set_option maxRecDepth 100000

namespace MMF

/-- Python strings, modelled as lists of characters. -/
abbrev Str := List Char

/-- Left brace character (written via its code point). -/
def lbrace : Char := Char.ofNat 123

/-- Right brace character (written via its code point). -/
def rbrace : Char := Char.ofNat 125

/-- Backtick character (written via its code point). -/
def btick : Char := Char.ofNat 96

/-- Python `str.isspace` / `re` whitespace class `\s` on a single character:
the ASCII whitespace characters together with the Unicode whitespace code
points Python recognises. -/
def pyIsSpace (c : Char) : Bool :=
  let n := c.toNat
  (9 ≤ n && n ≤ 13) || (28 ≤ n && n ≤ 31) || n == 32 || n == 133 || n == 160 ||
  n == 5760 || (8192 ≤ n && n ≤ 8202) || n == 8232 || n == 8233 ||
  n == 8239 || n == 8287 || n == 12288

/-- Python `str.split(sep)` for a one-character separator (empties kept). -/
def splitSep (sep : Char) : Str → List Str
  | [] => [[]]
  | c :: rest =>
    if c = sep then [] :: splitSep sep rest
    else
      match splitSep sep rest with
      | [] => [[c]]
      | l :: ls => (c :: l) :: ls

/-- Python `'\n'.join(lines)` (inverse of splitting on a newline). -/
def joinNl : List Str → Str
  | [] => []
  | [l] => l
  | l :: ls => l ++ '\n' :: joinNl ls

/-- Python `str.strip()` (no arguments): removes leading and trailing
whitespace characters. -/
def pyStrip (s : Str) : Str :=
  ((s.dropWhile pyIsSpace).reverse.dropWhile pyIsSpace).reverse

/-- Python `sub in s` substring test. -/
def containsSub (pat s : Str) : Bool :=
  s.tails.any (fun t => pat.isPrefixOf t)

/-- Python `x.replace('', new)`: inserts `new` before every character and at
the end (`'abc'.replace('', 'X') = 'XaXbXcX'`). -/
def pyReplaceEmpty (new : Str) : Str → Str
  | [] => new
  | c :: rest => new ++ c :: pyReplaceEmpty new rest

/-- Scanner for Python `str.replace` with a non-empty pattern; `fuel` bounds
the recursion and is always called with at least `s.length + 1`. -/
def pyReplaceAux (old new : Str) : Nat → Str → Str
  | 0, s => s
  | _ + 1, [] => []
  | fuel + 1, c :: rest =>
    if old.isPrefixOf (c :: rest) then
      new ++ pyReplaceAux old new fuel (rest.drop (old.length - 1))
    else
      c :: pyReplaceAux old new fuel rest

/-- Python `s.replace(old, new)`: replaces all non-overlapping occurrences of
`old`, scanning left to right. -/
def pyReplace (s old new : Str) : Str :=
  if old = [] then pyReplaceEmpty new s else pyReplaceAux old new (s.length + 1) s

/-- Python `str.lower` on one character (exact on ASCII, which is the only
alphabet locale tags use). -/
def pyLowerC (c : Char) : Char :=
  if 'A' ≤ c && c ≤ 'Z' then Char.ofNat (c.toNat + 32) else c

/-- Python `str.lower`. -/
def pyLowerS (s : Str) : Str := s.map pyLowerC

/-- Little-endian base-10 digit list of `n` (`fuel ≥ n` suffices). -/
def decDigitsAux : Nat → Nat → List Nat
  | 0, _ => []
  | fuel + 1, n => if n = 0 then [] else (n % 10) :: decDigitsAux fuel (n / 10)

/-- One decimal digit as a character. -/
def digitChar (d : Nat) : Char := Char.ofNat (48 + d)

/-- Decimal representation of a natural number, as Python's `str(n)`. -/
def decChars (n : Nat) : Str :=
  if n = 0 then ['0'] else ((decDigitsAux n n).map digitChar).reverse

/-- The substring `s[a:b]` (Python slice semantics for `0 ≤ a ≤ b`). -/
def slice (s : Str) (a b : Nat) : Str := (s.drop a).take (b - a)

/-- Association-list lookup, modelling Python `dict` access. -/
def assocGet {β : Type} : List (Str × β) → Str → Option β
  | [], _ => none
  | (k, v) :: rest, key => if k = key then some v else assocGet rest key

/-- Python `d[k] = v` on an insertion-ordered dict: update in place if the key
exists, append otherwise. -/
def assocSet {β : Type} (m : List (Str × β)) (key : Str) (v : β) : List (Str × β) :=
  if m.any (fun kv => kv.1 = key) then
    m.map (fun kv => if kv.1 = key then (key, v) else kv)
  else m ++ [(key, v)]

/-- Python `del d[k]` on an insertion-ordered dict. -/
def assocDel {β : Type} (m : List (Str × β)) (key : Str) : List (Str × β) :=
  m.filter (fun kv => ¬ (kv.1 = key))

/-!
## A backtracking matcher for the three regular expressions the scripts use

`mflocales.get_localizable_strings_from_markdown` and
`mfutils.replace_markdown_urls_with_format_specifiers` use `re.finditer` /
`re.sub` with fixed patterns whose only constructs are literals, character
classes, lazy and greedy starred classes, one greedy optional group, capture
groups, and the MULTILINE anchors inside `(^.*?$)`.  The patterns are encoded
as token lists and executed by a depth-first backtracking machine whose
alternative order is exactly Python's (lazy stars try shorter repetitions
first, greedy ones longer, the optional group tries its contents first), so
the machine returns the same match, with the same group spans, as `re`.
-/

/-- Character classes appearing in the patterns. -/
inductive CC where
  | dotNoNl
  | dotAll
  | ws
  | notRBrack
  | notRParen
deriving DecidableEq

/-- Membership in a character class (`.` without DOTALL excludes newlines;
`\s` is `pyIsSpace`; `[^\]]` and `[^\)]` are the negated literals). -/
def ccMem : CC → Char → Bool
  | .dotNoNl, c => c ≠ '\n'
  | .dotAll, _ => true
  | .ws, c => pyIsSpace c
  | .notRBrack, c => c ≠ ']'
  | .notRParen, c => c ≠ ')'

/-- Pattern tokens.  `star f lz` is `f*` (lazy when `lz`), `opt` is a greedy
`(?:...)?`, `capOpen`/`capClose` delimit capture group `j`, `bol`/`eol` are
the MULTILINE `^`/`$` anchors. -/
inductive Tok where
  | lit (c : Char)
  | cls (f : CC)
  | star (f : CC) (lz : Bool)
  | opt (ts : List Tok)
  | capOpen (j : Nat)
  | capClose (j : Nat)
  | bol
  | eol

/-- Capture state: pending group-open positions and completed group spans
(the patterns use at most four groups). -/
structure Caps where
  o1 : Option Nat := none
  o2 : Option Nat := none
  o3 : Option Nat := none
  o4 : Option Nat := none
  s1 : Option (Nat × Nat) := none
  s2 : Option (Nat × Nat) := none
  s3 : Option (Nat × Nat) := none
  s4 : Option (Nat × Nat) := none
deriving DecidableEq

/-- Record that group `j` opened at position `i`. -/
def Caps.setOpen (g : Caps) (j i : Nat) : Caps :=
  if j = 1 then { g with o1 := some i }
  else if j = 2 then { g with o2 := some i }
  else if j = 3 then { g with o3 := some i }
  else if j = 4 then { g with o4 := some i }
  else g

/-- Record that group `j` closed at position `i` (its span runs from the
pending open position). -/
def Caps.setClose (g : Caps) (j i : Nat) : Caps :=
  if j = 1 then match g.o1 with | some a => { g with s1 := some (a, i) } | none => g
  else if j = 2 then match g.o2 with | some a => { g with s2 := some (a, i) } | none => g
  else if j = 3 then match g.o3 with | some a => { g with s3 := some (a, i) } | none => g
  else if j = 4 then match g.o4 with | some a => { g with s4 := some (a, i) } | none => g
  else g

/-- Length of the maximal run of class-`f` characters starting at `i`. -/
def runLen (f : CC) (s : Str) (i : Nat) : Nat :=
  ((s.drop i).takeWhile (ccMem f)).length

/-- One backtracking alternative: remaining tokens, current position, captures. -/
abbrev Alt := List Tok × Nat × Caps

/-- The backtracking machine.  The alternative stack is explored depth first,
which reproduces Python's backtracking order; `fuel` bounds the number of
steps and is chosen generously by `reMatchAt`. -/
def reStep (s : Str) : Nat → List Alt → Option (Nat × Caps)
  | 0, _ => none
  | _ + 1, [] => none
  | fuel + 1, (toks, i, g) :: alts =>
    match toks with
    | [] => some (i, g)
    | .lit c :: rest =>
      match s.get? i with
      | some c' => if c' = c then reStep s fuel ((rest, i + 1, g) :: alts) else reStep s fuel alts
      | none => reStep s fuel alts
    | .cls f :: rest =>
      match s.get? i with
      | some c' => if ccMem f c' then reStep s fuel ((rest, i + 1, g) :: alts) else reStep s fuel alts
      | none => reStep s fuel alts
    | .star f lz :: rest =>
      let rl := runLen f s i
      let ks := if lz then List.range (rl + 1) else (List.range (rl + 1)).reverse
      reStep s fuel ((ks.map (fun k => (rest, i + k, g))) ++ alts)
    | .opt ts :: rest =>
      reStep s fuel ((ts ++ rest, i, g) :: (rest, i, g) :: alts)
    | .capOpen j :: rest => reStep s fuel ((rest, i, g.setOpen j i) :: alts)
    | .capClose j :: rest => reStep s fuel ((rest, i, g.setClose j i) :: alts)
    | .bol :: rest =>
      if i = 0 then reStep s fuel ((rest, i, g) :: alts)
      else
        match s.get? (i - 1) with
        | some c' => if c' = '\n' then reStep s fuel ((rest, i, g) :: alts) else reStep s fuel alts
        | none => reStep s fuel alts
    | .eol :: rest =>
      match s.get? i with
      | some c' => if c' = '\n' then reStep s fuel ((rest, i, g) :: alts) else reStep s fuel alts
      | none => reStep s fuel ((rest, i, g) :: alts)

/-- Step budget for one anchored match attempt (ample for the fixed patterns
on the documents these scripts process). -/
def reFuel (s : Str) : Nat := 2000 + 400 * (s.length + 1)

/-- Try to match the token list at position `i` (Python's anchored attempt
inside `finditer`). -/
def reMatchAt (s : Str) (toks : List Tok) (i : Nat) : Option (Nat × Caps) :=
  reStep s (reFuel s) [(toks, i, {})]

/-- One `re` match: start, end, captures. -/
structure MatchRes where
  mstart : Nat
  mend : Nat
  caps : Caps
deriving DecidableEq

/-- Scanner for `re.finditer`: try each start position left to right, resume
after each match (advancing at least one position past an empty match). -/
def finditerAux (s : Str) (toks : List Tok) : Nat → Nat → List MatchRes
  | 0, _ => []
  | fuel + 1, p =>
    if p > s.length then []
    else
      match reMatchAt s toks p with
      | none => finditerAux s toks fuel (p + 1)
      | some (e, g) => ⟨p, e, g⟩ :: finditerAux s toks fuel (max e (p + 1))

/-- Python `re.finditer(pattern, s)`. -/
def finditer (s : Str) (toks : List Tok) : List MatchRes :=
  finditerAux s toks (s.length + 2) 0

/-- Python `m.group(j)` given the span of group `j`. -/
def capStr (s : Str) (sp : Option (Nat × Nat)) : Option Str :=
  sp.map (fun ab => slice s ab.1 ab.2)

/-!
## `mflocales.get_localizable_strings_from_markdown`
-/

/-- The `LocalizedStringData` dataclass of `get_localizable_strings_from_markdown`. -/
structure LocalizedStringData where
  condition : Option Str
  key : Str
  value : Str
  comment : Str
  full_match : Str
deriving DecidableEq

/-- Tokens of the inline pattern `\{\{(.*?)\|\|(.*?)\|\|(.*?)\}\}`
(compiled without flags, so `.` does not match a newline). -/
def inlineToks : List Tok :=
  [.lit lbrace, .lit lbrace,
   .capOpen 1, .star .dotNoNl true, .capClose 1,
   .lit '|', .lit '|',
   .capOpen 2, .star .dotNoNl true, .capClose 2,
   .lit '|', .lit '|',
   .capOpen 3, .star .dotNoNl true, .capClose 3,
   .lit rbrace, .lit rbrace]

/-- A code fence in the block pattern. -/
def fenceToks : List Tok := [.lit btick, .lit btick, .lit btick]

/-- Tokens of the block pattern (compiled with DOTALL and MULTILINE):
```(?:\n\s*?if:\s*(.*?)\s*)?\n\s*?key:\s*(.*?)\s*\n\s*?```\n\s*(^.*?$)\s*```\n\s*?comment:\s*?(.*?)\s*\n\s*?``` -/
def blockToks : List Tok :=
  fenceToks ++
  [.opt ([.lit '\n', .star .ws true, .lit 'i', .lit 'f', .lit ':', .star .ws false,
          .capOpen 1, .star .dotAll true, .capClose 1, .star .ws false])] ++
  [.lit '\n', .star .ws true, .lit 'k', .lit 'e', .lit 'y', .lit ':', .star .ws false,
   .capOpen 2, .star .dotAll true, .capClose 2, .star .ws false, .lit '\n', .star .ws true] ++
  fenceToks ++
  [.lit '\n', .star .ws false,
   .capOpen 3, .bol, .star .dotAll true, .eol, .capClose 3, .star .ws false] ++
  fenceToks ++
  [.lit '\n', .star .ws true,
   .lit 'c', .lit 'o', .lit 'm', .lit 'm', .lit 'e', .lit 'n', .lit 't', .lit ':',
   .star .ws true, .capOpen 4, .star .dotAll true, .capClose 4,
   .star .ws false, .lit '\n', .star .ws true] ++
  fenceToks

/-- Whether a match came from the inline or the block pattern. -/
inductive Form where
  | inline
  | block
deriving DecidableEq

/-- `all_matches = inline_matches + block_matches` of the source: the full
list of inline matches (in document order) followed by the full list of
block matches (in document order). -/
def all_matches (md : Str) : List (Form × MatchRes) :=
  (finditer md inlineToks).map (fun m => (Form.inline, m)) ++
  (finditer md blockToks).map (fun m => (Form.block, m))

/-- The reserved-substring guard: none of `}}`, `||`, `{{` occurs. -/
def reservedOk (st : Str) : Bool :=
  ¬ containsSub [rbrace, rbrace] st && ¬ containsSub ['|', '|'] st &&
  ¬ containsSub [lbrace, lbrace] st

/-- The validation asserts of `get_localizable_strings_from_markdown` followed
by the key/comment stripping; `none` models an `AssertionError`. -/
def validateDecl (condition : Option Str) (key value comment full : Str) :
    Option LocalizedStringData :=
  if (condition.getD []).contains ' ' then none
  else if key.contains ' ' then none
  else if key.length = 0 then none
  else if value.length = 0 then none
  else if ¬ (reservedOk (condition.getD []) && reservedOk value &&
             reservedOk key && reservedOk comment) then none
  else some ⟨condition, pyStrip key, value, pyStrip comment, full⟩

/-- Turn one match into a `LocalizedStringData`: inline groups are
(value, key, comment), block groups are (condition, key, value, comment). -/
def processMatch (md : Str) (fm : Form × MatchRes) : Option LocalizedStringData :=
  let m := fm.2
  let full := slice md m.mstart m.mend
  match fm.1 with
  | .inline =>
    match capStr md m.caps.s1, capStr md m.caps.s2, capStr md m.caps.s3 with
    | some value, some key, some comment => validateDecl none key value comment full
    | _, _, _ => none
  | .block =>
    match capStr md m.caps.s2, capStr md m.caps.s3, capStr md m.caps.s4 with
    | some key, some value, some comment =>
      validateDecl (capStr md m.caps.s1) key value comment full
    | _, _, _ => none

/-- Process a list of matches, failing (as a Python assert does) as soon as
one declaration is invalid. -/
def mapOpt {α β : Type} (f : α → Option β) : List α → Option (List β)
  | [] => some []
  | a :: rest =>
    match f a with
    | none => none
    | some b => (mapOpt f rest).map (fun bs => b :: bs)

/-- `mflocales.get_localizable_strings_from_markdown`: `none` models a raised
`AssertionError` (the spec's ParseError). -/
def get_localizable_strings_from_markdown (md : Str) : Option (List LocalizedStringData) :=
  mapOpt (processMatch md) (all_matches md)

/-- The raw (pre-validation) key of a match: group 2 in both syntaxes. -/
def rawKey (md : Str) (fm : Form × MatchRes) : Str :=
  (capStr md fm.2.caps.s2).getD []

/-- The raw (pre-validation) value of a match: group 1 inline, group 3 block. -/
def rawValue (md : Str) (fm : Form × MatchRes) : Str :=
  match fm.1 with
  | .inline => (capStr md fm.2.caps.s1).getD []
  | .block => (capStr md fm.2.caps.s3).getD []

/-- The raw condition of a match (`condition or ''` in the source). -/
def rawCondition (md : Str) (fm : Form × MatchRes) : Str :=
  match fm.1 with
  | .inline => []
  | .block => (capStr md fm.2.caps.s1).getD []

/-- The raw comment of a match: group 3 inline, group 4 block. -/
def rawComment (md : Str) (fm : Form × MatchRes) : Str :=
  match fm.1 with
  | .inline => (capStr md fm.2.caps.s3).getD []
  | .block => (capStr md fm.2.caps.s4).getD []

/-!
## `mfutils.get_indent` / `mfutils.set_indent`
-/

/-- Python's `is_empty` helper inside `get_indent`: no characters, or only
whitespace (for the empty line `all(...)` is vacuously true, so a single
`all` test is equivalent to the source's disjunction). -/
def isEmptyLine (l : Str) : Bool := l.all pyIsSpace

/-- The second component of `get_indent`'s result: Python returns the empty
string in the two edge cases, `None` when the level is `0`, and a character
otherwise. -/
inductive IndentChar where
  | emptyStr
  | nullv
  | chr (c : Char)
deriving DecidableEq

/-- One pass of `get_indent`'s inner `for line in lines` loop at column
`lvl`: `crash` models the tab assertion failing (or an out-of-range index),
`brk` the `break_outer_loop` flag, `cont` falling through the loop.
`prev` carries the previous line's column-`lvl` character. -/
def scanAt (lvl : Nat) : List Str → Option Char → Bool ⊕ Unit
  | [], _ => Sum.inr ()
  | l :: ls, prev =>
    match l.get? lvl with
    | none => Sum.inl false
    | some c =>
      if c = '\t' then Sum.inl false
      else if ¬ pyIsSpace c || (match prev with | some p => decide (c ≠ p) | none => false) then
        Sum.inl true
      else scanAt lvl ls (some c)

/-- The outer `while True` loop of `get_indent`: returns the indent level, or
`none` when the scan crashes; `fuel` bounds the recursion (the loop always
breaks or crashes before the first non-blank line runs out of characters). -/
def scanLoop (lines : List Str) : Nat → Nat → Option Nat
  | 0, _ => none
  | fuel + 1, lvl =>
    match scanAt lvl lines none with
    | Sum.inl false => none
    | Sum.inl true => some lvl
    | Sum.inr () => scanLoop lines fuel (lvl + 1)

/-- `mfutils.get_indent`: the common indent level of the non-blank lines and
the indent character; `none` models the tab assertion failing. -/
def get_indent (s : Str) : Option (Nat × IndentChar) :=
  if s = [] then some (0, .emptyStr)
  else
    let lines := (splitSep '\n' s).filter (fun l => ¬ isEmptyLine l)
    match lines with
    | [] => some (0, .emptyStr)
    | l0 :: _ =>
      match scanLoop lines (l0.length + 2) 0 with
      | none => none
      | some lvl =>
        if lvl = 0 then some (0, .nullv)
        else
          match l0.get? 0 with
          | some c => some (lvl, .chr c)
          | none => none

/-- `mfutils.set_indent`: strip the existing uniform indent, then prepend the
requested one to every line; `none` models `get_indent` crashing. -/
def set_indent (s : Str) (lvl : Nat) (ch : Char) : Option Str :=
  match get_indent s with
  | none => none
  | some (old, _) =>
    let s1 := if old > 0 then joinNl ((splitSep '\n' s).map (fun l => l.drop old)) else s
    let s2 :=
      if lvl > 0 then joinNl ((splitSep '\n' s1).map (fun l => List.replicate lvl ch ++ l))
      else s1
    some s2

/-!
## `mfutils.replace_markdown_urls_with_format_specifiers` and its inverse
-/

/-- Tokens of the markdown-link pattern `\[[^\]]+?\]\(([^\)]+?)\)` (a lazy
`+` is one mandatory class character followed by a lazy star). -/
def mdlinkToks : List Tok :=
  [.lit '[', .cls .notRBrack, .star .notRBrack true, .lit ']',
   .lit '(', .capOpen 1, .cls .notRParen, .star .notRParen true, .capClose 1, .lit ')']

/-- The url placeholder: `{url}` when exactly one link exists, `{url_<ctr>}`
otherwise. -/
def placeholderFor (url_count ctr : Nat) : Str :=
  if url_count ≠ 1 then lbrace :: ('u' :: 'r' :: 'l' :: '_' :: decChars ctr) ++ [rbrace]
  else lbrace :: 'u' :: 'r' :: 'l' :: [rbrace]

/-- The Result dataclass of `replace_markdown_urls_with_format_specifiers`. -/
structure UrlResult where
  md_string : Str
  removed_urls : List Str
deriving DecidableEq

/-- Group 1 (the link target) of one markdown-link match. -/
def urlGroup (s : Str) (m : MatchRes) : Str := (capStr s m.caps.s1).getD []

/-- The `re.sub` reconstruction: copy the text between matches and replace,
inside each matched link, every occurrence of its url with the placeholder
(the source's `match.group(0).replace(match.group(1), placeholder)`). -/
def subUrlsAux (md : Str) (n : Nat) : Nat → Nat → List MatchRes → Str
  | pos, _, [] => md.drop pos
  | pos, ctr, m :: rest =>
    slice md pos m.mstart ++
    pyReplace (slice md m.mstart m.mend) (urlGroup md m) (placeholderFor n ctr) ++
    subUrlsAux md n m.mend (ctr + 1) rest

/-- `mfutils.replace_markdown_urls_with_format_specifiers`. -/
def replace_markdown_urls_with_format_specifiers (md : Str) : UrlResult :=
  let ms := finditer md mdlinkToks
  ⟨subUrlsAux md ms.length 0 1 ms, ms.map (urlGroup md)⟩

/-- The enumeration loop of `replace_format_specifiers_with_markdown_urls`:
for each url check its placeholder is present (the source's assert; `none`
models its failure), then replace every occurrence. -/
def reinsAux (n : Nat) : Nat → Str → List Str → Option Str
  | _, cur, [] => some cur
  | ctr, cur, url :: rest =>
    let ph := placeholderFor n ctr
    if containsSub ph cur then reinsAux n (ctr + 1) (pyReplace cur ph url) rest
    else none

/-- `mfutils.replace_format_specifiers_with_markdown_urls`. -/
def replace_format_specifiers_with_markdown_urls (md : Str) (urls : List Str) : Option Str :=
  reinsAux urls.length 1 md urls

/-!
## The `.xcstrings` data model (the JSON shape the scripts read)
-/

/-- One `stringUnit`: both fields can be absent in the JSON. -/
structure StringUnitM where
  state : Option Str := none
  value : Option Str := none
deriving DecidableEq

/-- One per-locale localization record. -/
structure LocalizationM where
  stringUnit : Option StringUnitM := none
deriving DecidableEq

/-- One catalog entry: `shouldTranslate` and `localizations` keys can be
absent. -/
structure StringEntryM where
  shouldTranslate : Option Bool := none
  localizations : Option (List (Str × LocalizationM)) := none
deriving DecidableEq

/-- A parsed `.xcstrings` file. -/
structure XCStrings where
  version : Str
  sourceLanguage : Str
  strings : List (Str × StringEntryM)
deriving DecidableEq

/-!
## `mflocales.get_localization_progress`
-/

/-- The `'translated'` state string. -/
def stTranslated : Str := ("translated").data

/-- The `'new'` state string. -/
def stNew : Str := ("new").data

/-- The `'needs_review'` state string. -/
def stNeedsReview : Str := ("needs_review").data

/-- The `'mmf_indeterminate'` state string. -/
def stIndeterminate : Str := ("mmf_indeterminate").data

/-- The `'stale'` state string. -/
def stStale : Str := ("stale").data

/-- The `'mmf_dont_translate'` state string. -/
def stDontTranslate : Str := ("mmf_dont_translate").data

/-- `should_translate_states = ['new', 'needs_review', 'mmf_indeterminate']`. -/
def shouldTranslateStates : List Str := [stNew, stNeedsReview, stIndeterminate]

/-- `all_states`. -/
def allStates : List Str :=
  [stTranslated] ++ shouldTranslateStates ++ [stStale, stDontTranslate]

/-- The state the progress loop computes for one entry and locale:
`'mmf_dont_translate'` when `shouldTranslate` is false, otherwise the chain
`.get('localizations', {}).get(locale, {}).get('stringUnit', {}).get('state',
'mmf_indeterminate')`. -/
def state_of (e : StringEntryM) (locale : Str) : Str :=
  if e.shouldTranslate.getD true = false then stDontTranslate
  else
    match assocGet (e.localizations.getD []) locale with
    | none => stIndeterminate
    | some loc =>
      match loc.stringUnit with
      | none => stIndeterminate
      | some su => su.state.getD stIndeterminate

/-- All `(key, entry)` occurrences of a list of catalogs, in iteration order
(`for xcstring_object in ...: for key, string_dict in ...`). -/
def all_key_entries (objs : List XCStrings) : List (Str × StringEntryM) :=
  objs.foldr (fun o acc => o.strings ++ acc) []

/-- `defaultdict(lambda: 0)` increment on a state-count table. -/
def cntIncr (m : List (Str × Nat)) (st : Str) : List (Str × Nat) :=
  match assocGet m st with
  | some n => assocSet m st (n + 1)
  | none => m ++ [(st, 1)]

/-- `localization_state_counts[locale][s] += 1` on the outer table. -/
def countsIncr (m : List (Str × List (Str × Nat))) (locale st : Str) :
    List (Str × List (Str × Nat)) :=
  match assocGet m locale with
  | some inner => assocSet m locale (cntIncr inner st)
  | none => m ++ [(locale, cntIncr [] st)]

/-- The counting loop of `get_localization_progress` (the per-pair inner loop
over `translation_locales`). -/
def countsFold (pairs : List (Str × StringEntryM)) (locales : List Str) :
    List (Str × List (Str × Nat)) :=
  pairs.foldl
    (fun m kv => locales.foldl (fun m' L => countsIncr m' L (state_of kv.2 L)) m) []

/-- `missing_keys[locale].append(key)` on a `defaultdict(lambda: [])`. -/
def missIncr (m : List (Str × List Str)) (locale key : Str) : List (Str × List Str) :=
  match assocGet m locale with
  | some l => assocSet m locale (l ++ [key])
  | none => m ++ [(locale, [key])]

/-- The missing-keys accumulation loop of `get_localization_progress`. -/
def missingFold (pairs : List (Str × StringEntryM)) (locales : List Str) :
    List (Str × List Str) :=
  pairs.foldl
    (fun m kv =>
      locales.foldl
        (fun m' L =>
          if shouldTranslateStates.contains (state_of kv.2 L) then missIncr m' L kv.1
          else m')
        m)
    []

/-- `state_counts.get(s, 0)`. -/
def cntGet (m : List (Str × Nat)) (st : Str) : Nat := (assocGet m st).getD 0

/-- One record of the returned progress dict.  `missing_keys_colon` is the
value the source stores under the (misnamed) dict key `'missing_keys:'`: the
whole locale-to-missing-keys table, not this locale's list.  `percentage` is
Python's float division, modelled exactly over `ℚ`. -/
structure ProgressEntry where
  translated : Nat
  to_translate : Nat
  percentage : ℚ
  missing_keys_colon : List (Str × List Str)
deriving DecidableEq

/-- The final loop of `get_localization_progress`; `none` models the
`ZeroDivisionError` raised when `to_translate_count` is `0`. -/
def buildProgress (missing : List (Str × List Str)) :
    List (Str × List (Str × Nat)) → Option (List (Str × ProgressEntry))
  | [] => some []
  | (L, sc) :: rest =>
    let tr := cntGet sc stTranslated
    let tt := tr + cntGet sc stNew + cntGet sc stNeedsReview + cntGet sc stIndeterminate
    if tt = 0 then none
    else
      (buildProgress missing rest).map
        (fun acc => (L, ⟨tr, tt, (tr : ℚ) / (tt : ℚ), missing⟩) :: acc)

/-- `mflocales.get_localization_progress`; `none` models either the
`assert s in all_states` failing on an unknown state, or the unguarded zero
division.  (The source's JSON round trip of the counts table is the
identity and is omitted.) -/
def get_localization_progress (objs : List XCStrings) (locales : List Str) :
    Option (List (Str × ProgressEntry)) :=
  let pairs := all_key_entries objs
  if pairs.all (fun kv => locales.all (fun L => allStates.contains (state_of kv.2 L))) then
    buildProgress (missingFold pairs locales) (countsFold pairs locales)
  else none

/-!
## `mflocales.get_translation` and `babel.negotiate_locale`
-/

/-- `babel.core.LOCALE_ALIASES`, the default alias table of
`babel.negotiate_locale`. -/
def LOCALE_ALIASES : List (Str × Str) :=
  [(("ar").data, ("ar_SY").data), (("bg").data, ("bg_BG").data),
   (("bs").data, ("bs_BA").data), (("ca").data, ("ca_ES").data),
   (("cs").data, ("cs_CZ").data), (("da").data, ("da_DK").data),
   (("de").data, ("de_DE").data), (("el").data, ("el_GR").data),
   (("en").data, ("en_US").data), (("es").data, ("es_ES").data),
   (("et").data, ("et_EE").data), (("fa").data, ("fa_IR").data),
   (("fi").data, ("fi_FI").data), (("fr").data, ("fr_FR").data),
   (("gl").data, ("gl_ES").data), (("he").data, ("he_IL").data),
   (("hu").data, ("hu_HU").data), (("id").data, ("id_ID").data),
   (("is").data, ("is_IS").data), (("it").data, ("it_IT").data),
   (("ja").data, ("ja_JP").data), (("km").data, ("km_KH").data),
   (("ko").data, ("ko_KR").data), (("lt").data, ("lt_LT").data),
   (("lv").data, ("lv_LV").data), (("mk").data, ("mk_MK").data),
   (("nl").data, ("nl_NL").data), (("nn").data, ("nn_NO").data),
   (("no").data, ("nb_NO").data), (("pl").data, ("pl_PL").data),
   (("pt").data, ("pt_PT").data), (("ro").data, ("ro_RO").data),
   (("ru").data, ("ru_RU").data), (("sk").data, ("sk_SK").data),
   (("sl").data, ("sl_SI").data), (("sv").data, ("sv_SE").data),
   (("th").data, ("th_TH").data), (("tr").data, ("tr_TR").data),
   (("uk").data, ("uk_UA").data)]

/-- The candidate loop of `babel.negotiate_locale` (with the default
separator `'_'`, so the alias's `replace('_', sep)` is the identity):
return the first preferred locale that matches the lowercased available list,
or its alias, or its first `'_'`-separated part. -/
def negotiateGo (available : List Str) : List Str → Option Str
  | [] => none
  | l :: rest =>
    let ll := pyLowerS l
    if available.contains ll then some l
    else
      match assocGet LOCALE_ALIASES ll with
      | some al =>
        if available.contains (pyLowerS al) then some al
        else
          let parts := splitSep '_' l
          if parts.length > 1 && available.contains (pyLowerS (parts.headD [])) then
            some (parts.headD [])
          else negotiateGo available rest
      | none =>
        let parts := splitSep '_' l
        if parts.length > 1 && available.contains (pyLowerS (parts.headD [])) then
          some (parts.headD [])
        else negotiateGo available rest

/-- `babel.negotiate_locale(preferred, available)` (default separator and
aliases): empty strings are dropped from `available`, which is lowercased. -/
def negotiate_locale (preferred available0 : List Str) : Option Str :=
  negotiateGo ((available0.filter (fun a => a ≠ [])).map pyLowerS) preferred

/-- The failure modes of `get_translation`: the version assert, a `KeyError`
(absent key or a negotiated locale spelled differently than the stored one),
and the `localizations[None]` failure when negotiation finds no locale (the
spec's `MissingTranslationError`). -/
inductive TErr where
  | assertVersion
  | keyError
  | missingTranslation
deriving DecidableEq

/-- `mflocales.get_translation`. -/
def get_translation (x : XCStrings) (key : Str) (preferred : Str) (fallback : Bool) :
    Except TErr (Str × Str) :=
  if x.version ≠ ("1.0").data then .error .assertVersion
  else
    match assocGet x.strings key with
    | none => .error .keyError
    | some entry =>
      match entry.localizations with
      | none => .error .keyError
      | some locs =>
        if fallback then
          let avail := locs.map (fun kv => kv.1)
          match negotiate_locale (preferred :: x.sourceLanguage :: avail) avail with
          | none => .error .missingTranslation
          | some L =>
            match assocGet locs L with
            | none => .error .keyError
            | some loc =>
              match loc.stringUnit with
              | none => .error .keyError
              | some su =>
                match su.value with
                | none => .error .keyError
                | some v => .ok (v, L)
        else
          let v := (((assocGet locs preferred).bind
            (fun loc => loc.stringUnit)).bind (fun su => su.value)).getD []
          .ok (v, preferred)

/-!
## `syncstrings.update_xcstrings`, post-sync restore phase
-/

/-- A catalog entry as the sync script sees it: its `extractionState` (the
key can be absent) plus the rest of the JSON object, abstracted as an opaque
payload that the phase never inspects. -/
structure XEntry where
  extractionState : Option Str := none
  payload : Nat := 0
deriving DecidableEq

/-- One extracted string handed to `update_xcstrings` (`key` and the optional
prefixed key used to re-index). -/
structure SyncItem where
  key : Str
  kwip : Option Str
deriving DecidableEq

/-- The `'stale'` extraction state. -/
def esStale : Str := ("stale").data

/-- The `'manual'` extraction state. -/
def esManual : Str := ("manual").data

/-- Post-sync modification 1: set `extractionState` to `'manual'` for every
entry that is not `'stale'` (stale entries are left untouched). -/
def restore_states (strings : List (Str × XEntry)) : List (Str × XEntry) :=
  strings.map
    (fun kv =>
      if kv.2.extractionState = some esStale then kv
      else (kv.1, { kv.2 with extractionState := some esManual }))

/-- Post-sync modification 2: for each item carrying a prefixed key, move the
entry from the bare key to the prefixed key (`d[kwip] = d[key]; del d[key]`);
`none` models the `KeyError` when the bare key is absent. -/
def apply_moves : List (Str × XEntry) → List SyncItem → Option (List (Str × XEntry))
  | m, [] => some m
  | m, it :: rest =>
    match it.kwip with
    | none => apply_moves m rest
    | some kw =>
      match assocGet m it.key with
      | none => none
      | some v => apply_moves (assocDel (assocSet m kw v) it.key) rest

/-- Set equality of two key lists (Python `set(a) == set(b)`). -/
def keySetEq (a b : List Str) : Bool :=
  a.all (fun k => b.contains k) && b.all (fun k => a.contains k)

/-- The post-sync catalog rewrite of `update_xcstrings`: restore extraction
states, check the key set equals the extracted key set (the source's assert;
`none` models its failure), then re-apply the index prefixes. -/
def post_sync_restore (strings : List (Str × XEntry)) (items : List SyncItem) :
    Option (List (Str × XEntry)) :=
  let strings' := restore_states strings
  if keySetEq (strings'.map (fun kv => kv.1)) (items.map (fun it => it.key)) then
    apply_moves strings' items
  else none

/-!
## The key indexer (spec-modelled)
-/

/-- Modelled from the spec: `mflocales.remove_index_prefix_from_key` is not
in src (only its callers are).  Spec §4.2: removes a numeric prefix plus
separator if present, no-op otherwise; the source comments show the format
`003:some.key -> some.key`.  A leading digit run followed by `':'` is
removed (any run length, so that the documented round-trip law holds for
every position). -/
def remove_index_prefix_from_key (key : Str) : Str :=
  if key.takeWhile (fun c => c.isDigit) ≠ [] ∧
      key.get? (key.takeWhile (fun c => c.isDigit)).length = some ':' then
    key.drop ((key.takeWhile (fun c => c.isDigit)).length + 1)
  else key

/-- Modelled from the spec: the prefix-applying counterpart (spec §4.2
`reindex` assigns `prefix = zero-padded position`; source comments show
`some.key -> 003:some.key`, Python `f'{index:03}:{key}'`). -/
def add_index_prefix_to_key (key : Str) (n : Nat) : Str :=
  let d := decChars n
  (List.replicate (3 - d.length) '0' ++ d) ++ ':' :: key

/-!
## Specification-side counting functions (used to state the progress claims)
-/

/-- The number of `(catalog, key)` occurrences whose state for `L` is `st`. -/
def countState (objs : List XCStrings) (L st : Str) : Nat :=
  ((all_key_entries objs).filter (fun kv => state_of kv.2 L = st)).length

/-- The keys classified as to-translate for `L`, in traversal order. -/
def missingList (objs : List XCStrings) (L : Str) : List Str :=
  ((all_key_entries objs).filter
    (fun kv => shouldTranslateStates.contains (state_of kv.2 L))).map (fun kv => kv.1)

/-- Whether a key carries a numeric index prefix (a nonempty digit run
followed by `':'`). -/
abbrev hasIndexPfx (key : Str) : Prop :=
  key.takeWhile (fun c => c.isDigit) ≠ [] ∧
  key.get? (key.takeWhile (fun c => c.isDigit)).length = some ':'

/-- Text containing neither brace character. -/
abbrev braceFree (s : Str) : Prop := ∀ c ∈ s, c ≠ lbrace ∧ c ≠ rbrace

/-!
## Concrete inputs used by the counterexamples and witnesses
-/

/-- A document with a block declaration before an inline one. -/
def c1doc : Str :=
  ("```\nkey: a.b\n```\nv\n```\ncomment: c\n```\n\x7b\x7bV||i.k||C\x7d\x7d").data

/-- The two declarations extracted from `c1doc` (inline first, although it
occurs last in the document). -/
def c1decls : List LocalizedStringData :=
  [⟨none, ("i.k").data, ("V").data, ("C").data, ("\x7b\x7bV||i.k||C\x7d\x7d").data⟩,
   ⟨none, ("a.b").data, ("v").data, ("c").data,
    ("```\nkey: a.b\n```\nv\n```\ncomment: c\n```").data⟩]

/-- An inline declaration whose key contains a tab (whitespace that is not a
space). -/
def c7doc : Str := ("\x7b\x7bv||a\tb||c\x7d\x7d").data

/-- An inline declaration whose key contains a space. -/
def c7bad : Str := ("\x7b\x7bv||a b||c\x7d\x7d").data

/-- A text containing the literal placeholder token before a markdown link. -/
def c9doc : Str := ("\x7burl\x7d [a](b)").data

/-- A brace-free text with one markdown link (round-trip witness input). -/
def c9good : Str := ("See [cool](https://a.io) now [too](b)").data

/-- A localization holding a unit with the given state (and some value). -/
def unitWith (st : Str) : LocalizationM := ⟨some ⟨some st, some (("x").data)⟩⟩

/-- An entry holding one unit per listed locale, with the given states. -/
def entryWith (ps : List (Str × Str)) : StringEntryM :=
  ⟨none, some (ps.map (fun p => (p.1, unitWith p.2)))⟩

/-- A catalog whose only key is `stale` for `de`: its to-translate count is
zero. -/
def objZero : XCStrings :=
  ⟨("1.0").data, ("en").data, [(("k").data, entryWith [(("de").data, stStale)])]⟩

/-- A catalog with key `k` translated for `de` and new for `fr`. -/
def objTwo : XCStrings :=
  ⟨("1.0").data, ("en").data,
   [(("k").data, entryWith [(("de").data, stTranslated), (("fr").data, stNew)])]⟩

/-- A catalog with keys `a` (translated for `de`) and `b` (new for `de`). -/
def objAB : XCStrings :=
  ⟨("1.0").data, ("en").data,
   [(("a").data, entryWith [(("de").data, stTranslated)]),
    (("b").data, entryWith [(("de").data, stNew)])]⟩

/-- A catalog whose key `k` has no unit at all for any locale. -/
def objNoUnit : XCStrings :=
  ⟨("1.0").data, ("en").data, [(("k").data, ⟨none, some []⟩)]⟩

/-- A catalog whose only key holds only an `en` unit with a value. -/
def xcEnOnly : XCStrings :=
  ⟨("1.0").data, ("en").data,
   [(("k0").data,
     ⟨none, some [(("en").data, ⟨some ⟨some stTranslated, some (("Hello").data)⟩⟩)]⟩)]⟩

/-- Catalog contents before the post-sync restore phase: a non-stale entry
`a` and a stale entry `b`. -/
def syncStrings0 : List (Str × XEntry) :=
  [(("a").data, ⟨some (("extracted_with_value").data), 1⟩),
   (("b").data, ⟨some esStale, 2⟩)]

/-- Extracted items for the restore phase: `a` is re-indexed, `b` is not. -/
def syncItems0 : List SyncItem :=
  [⟨("a").data, some (("001:a").data)⟩, ⟨("b").data, none⟩]

/-!
## Proof devices for the url round trip

`Mtc` is a declarative acceptance relation for the backtracking machine (one
rule per way `reStep` extends an alternative), used to read facts off a
successful match.  `PhClean` describes strings built from non-`{` characters
and inserted placeholder blocks, the shape `re.sub`'s output has.
-/

/-- Declarative matching relation: `Mtc s ts i g e g'` holds when token list
`ts`, started at position `i` with capture state `g`, can accept ending at
position `e` with capture state `g'`, following exactly the moves `reStep`
makes. -/
inductive Mtc (s : Str) : List Tok → Nat → Caps → Nat → Caps → Prop where
  | done (i : Nat) (g : Caps) : Mtc s [] i g i g
  | litc {c : Char} {rest : List Tok} {i : Nat} {g : Caps} {e : Nat} {g' : Caps} :
      s.get? i = some c → Mtc s rest (i + 1) g e g' → Mtc s (.lit c :: rest) i g e g'
  | clsc {f : CC} {rest : List Tok} {i : Nat} {g : Caps} {e : Nat} {g' : Caps}
      (c' : Char) :
      s.get? i = some c' → ccMem f c' = true → Mtc s rest (i + 1) g e g' →
      Mtc s (.cls f :: rest) i g e g'
  | starc {f : CC} {lz : Bool} {rest : List Tok} {i : Nat} {g : Caps} {e : Nat}
      {g' : Caps} (k : Nat) :
      k ≤ runLen f s i → Mtc s rest (i + k) g e g' →
      Mtc s (.star f lz :: rest) i g e g'
  | optIn {ts rest : List Tok} {i : Nat} {g : Caps} {e : Nat} {g' : Caps} :
      Mtc s (ts ++ rest) i g e g' → Mtc s (.opt ts :: rest) i g e g'
  | optOut {ts rest : List Tok} {i : Nat} {g : Caps} {e : Nat} {g' : Caps} :
      Mtc s rest i g e g' → Mtc s (.opt ts :: rest) i g e g'
  | capO {j : Nat} {rest : List Tok} {i : Nat} {g : Caps} {e : Nat} {g' : Caps} :
      Mtc s rest i (g.setOpen j i) e g' → Mtc s (.capOpen j :: rest) i g e g'
  | capC {j : Nat} {rest : List Tok} {i : Nat} {g : Caps} {e : Nat} {g' : Caps} :
      Mtc s rest i (g.setClose j i) e g' → Mtc s (.capClose j :: rest) i g e g'
  | bolStart {rest : List Tok} {i : Nat} {g : Caps} {e : Nat} {g' : Caps} :
      i = 0 → Mtc s rest i g e g' → Mtc s (.bol :: rest) i g e g'
  | bolNl {rest : List Tok} {i : Nat} {g : Caps} {e : Nat} {g' : Caps} :
      s.get? (i - 1) = some '\n' → Mtc s rest i g e g' → Mtc s (.bol :: rest) i g e g'
  | eolNl {rest : List Tok} {i : Nat} {g : Caps} {e : Nat} {g' : Caps} :
      s.get? i = some '\n' → Mtc s rest i g e g' → Mtc s (.eol :: rest) i g e g'
  | eolEnd {rest : List Tok} {i : Nat} {g : Caps} {e : Nat} {g' : Caps} :
      s.get? i = none → Mtc s rest i g e g' → Mtc s (.eol :: rest) i g e g'

/-- Strings assembled from characters other than `'\x7b'` and inserted blocks
satisfying `ok` (the shape of `re.sub` output on brace-free input). -/
inductive PhClean (ok : Str → Prop) : Str → Prop where
  | done : PhClean ok []
  | skip (c : Char) (r : Str) : c ≠ lbrace → PhClean ok r → PhClean ok (c :: r)
  | ins (p r : Str) : ok p → PhClean ok r → PhClean ok (p ++ r)

/-- Value of a little-endian digit list (used to invert `decDigitsAux`). -/
def digitsVal : List Nat → Nat
  | [] => 0
  | d :: ds => d + 10 * digitsVal ds

/-- The placeholders with index between `lo` and `hi` (for `url_count` `n`). -/
def phIn (n lo hi : Nat) (p : Str) : Prop :=
  ∃ j, lo ≤ j ∧ j ≤ hi ∧ p = placeholderFor n j

/-!
# Theorems

## Generic helper lemmas
-/

theorem mapOpt_forall_some {α β : Type} {f : α → Option β} :
    ∀ {l : List α} {bs : List β}, mapOpt f l = some bs → ∀ a ∈ l, ∃ b, f a = some b := by
  intro l
  induction l with
  | nil => intro bs _ a ha; cases ha
  | cons x xs ih =>
    intro bs h a ha
    unfold mapOpt at h
    cases hx : f x with
    | none => rw [hx] at h; cases h
    | some b =>
      rw [hx] at h
      cases hrec : mapOpt f xs with
      | none => rw [hrec] at h; cases h
      | some bs' =>
        rcases List.mem_cons.mp ha with rfl | ha'
        · exact ⟨b, hx⟩
        · exact ih hrec a ha'

theorem mapOpt_some_get {α β : Type} {f : α → Option β} :
    ∀ {l : List α} {bs : List β}, mapOpt f l = some bs →
      bs.length = l.length ∧
      ∀ i (hi : i < l.length) (hb : i < bs.length),
        f (l.get ⟨i, hi⟩) = some (bs.get ⟨i, hb⟩) := by
  intro l
  induction l with
  | nil =>
    intro bs h
    unfold mapOpt at h
    cases h
    exact ⟨rfl, fun i hi => absurd hi (by simp)⟩
  | cons x xs ih =>
    intro bs h
    unfold mapOpt at h
    cases hx : f x with
    | none => rw [hx] at h; cases h
    | some b =>
      rw [hx] at h
      cases hrec : mapOpt f xs with
      | none => rw [hrec] at h; cases h
      | some bs' =>
        rw [hrec] at h
        simp only [Option.map_some] at h
        cases h
        obtain ⟨hlen, hget⟩ := ih hrec
        refine ⟨by simp [hlen], ?_⟩
        intro i hi hb
        match i with
        | 0 => simpa using hx
        | i + 1 =>
          exact hget i (by simpa using hi) (by simpa using hb)

theorem validateDecl_some {cond : Option Str} {k v c f : Str} {d : LocalizedStringData}
    (h : validateDecl cond k v c f = some d) :
    k.contains ' ' = false ∧ k ≠ [] ∧ v ≠ [] ∧
    reservedOk (cond.getD []) = true ∧ reservedOk v = true ∧ reservedOk k = true ∧
    reservedOk c = true ∧ d = ⟨cond, pyStrip k, v, pyStrip c, f⟩ := by
  unfold validateDecl at h
  split_ifs at h with h1 h2 h3 h4 h5
  have hsp : k.contains ' ' = false := Bool.eq_false_iff.mpr h2
  have hres := h5
  simp only [Bool.and_eq_true] at hres
  refine ⟨hsp, ?_, ?_, hres.1.1.1, hres.1.1.2, hres.1.2, hres.2, (Option.some.inj h).symm⟩
  · intro hk; exact h3 (by simp [hk])
  · intro hv; exact h4 (by simp [hv])

theorem processMatch_some_facts {md : Str} {fm : Form × MatchRes} {d : LocalizedStringData}
    (h : processMatch md fm = some d) :
    d.full_match = slice md fm.2.mstart fm.2.mend ∧
    (rawKey md fm).contains ' ' = false ∧ rawKey md fm ≠ [] ∧ rawValue md fm ≠ [] ∧
    reservedOk (rawCondition md fm) = true ∧ reservedOk (rawValue md fm) = true ∧
    reservedOk (rawKey md fm) = true ∧ reservedOk (rawComment md fm) = true := by
  unfold processMatch at h
  cases hform : fm.1 with
  | inline =>
    rw [hform] at h
    simp only at h
    cases h1 : capStr md fm.2.caps.s1 with
    | none => rw [h1] at h; cases h
    | some v =>
      cases h2 : capStr md fm.2.caps.s2 with
      | none => rw [h1, h2] at h; cases h
      | some k =>
        cases h3 : capStr md fm.2.caps.s3 with
        | none => rw [h1, h2, h3] at h; cases h
        | some c =>
          rw [h1, h2, h3] at h
          obtain ⟨hsp, hk, hv, hrc, hrv, hrk, hrcm, hd⟩ := validateDecl_some h
          have hK : rawKey md fm = k := by simp [rawKey, h2]
          have hV : rawValue md fm = v := by simp [rawValue, hform, h1]
          have hC : rawCondition md fm = [] := by simp [rawCondition, hform]
          have hCm : rawComment md fm = c := by simp [rawComment, hform, h3]
          refine ⟨by rw [hd], ?_, ?_, ?_, ?_, ?_, ?_, ?_⟩
          · rw [hK]; exact hsp
          · rw [hK]; exact hk
          · rw [hV]; exact hv
          · rw [hC]; simpa using hrc
          · rw [hV]; exact hrv
          · rw [hK]; exact hrk
          · rw [hCm]; exact hrcm
  | block =>
    rw [hform] at h
    simp only at h
    cases h2 : capStr md fm.2.caps.s2 with
    | none => rw [h2] at h; cases h
    | some k =>
      cases h3 : capStr md fm.2.caps.s3 with
      | none => rw [h2, h3] at h; cases h
      | some v =>
        cases h4 : capStr md fm.2.caps.s4 with
        | none => rw [h2, h3, h4] at h; cases h
        | some c =>
          rw [h2, h3, h4] at h
          obtain ⟨hsp, hk, hv, hrc, hrv, hrk, hrcm, hd⟩ := validateDecl_some h
          have hK : rawKey md fm = k := by simp [rawKey, h2]
          have hV : rawValue md fm = v := by simp [rawValue, hform, h3]
          have hC : rawCondition md fm = (capStr md fm.2.caps.s1).getD [] := by
            simp [rawCondition, hform]
          have hCm : rawComment md fm = c := by simp [rawComment, hform, h4]
          refine ⟨by rw [hd], ?_, ?_, ?_, ?_, ?_, ?_, ?_⟩
          · rw [hK]; exact hsp
          · rw [hK]; exact hk
          · rw [hV]; exact hv
          · rw [hC]; exact hrc
          · rw [hV]; exact hrv
          · rw [hK]; exact hrk
          · rw [hCm]; exact hrcm

theorem finditerAux_start_ge {s : Str} {toks : List Tok} :
    ∀ {fuel p : Nat} {m : MatchRes}, m ∈ finditerAux s toks fuel p → p ≤ m.mstart := by
  intro fuel
  induction fuel with
  | zero => intro p m hm; simp [finditerAux] at hm
  | succ fuel ih =>
    intro p m hm
    unfold finditerAux at hm
    split at hm
    · cases hm
    · cases hre : reMatchAt s toks p with
      | none =>
        rw [hre] at hm
        exact Nat.le_of_succ_le (ih hm)
      | some eg =>
        obtain ⟨e, g⟩ := eg
        rw [hre] at hm
        rcases List.mem_cons.mp hm with rfl | hm'
        · exact Nat.le_refl _
        · have := ih hm'
          have h1 : p + 1 ≤ max e (p + 1) := Nat.le_max_right _ _
          omega

theorem finditerAux_pairwise {s : Str} {toks : List Tok} :
    ∀ {fuel p : Nat},
      List.Pairwise (fun a b => a.mstart < b.mstart) (finditerAux s toks fuel p) := by
  intro fuel
  induction fuel with
  | zero => intro p; simp [finditerAux]
  | succ fuel ih =>
    intro p
    unfold finditerAux
    split
    · exact List.Pairwise.nil
    · cases hre : reMatchAt s toks p with
      | none => exact ih
      | some eg =>
        obtain ⟨e, g⟩ := eg
        refine List.Pairwise.cons ?_ ih
        intro m hm
        have h1 := finditerAux_start_ge hm
        have h2 : p + 1 ≤ max e (p + 1) := Nat.le_max_right _ _
        simp only
        omega

theorem finditer_pairwise {s : Str} {toks : List Tok} :
    List.Pairwise (fun a b => a.mstart < b.mstart) (finditer s toks) :=
  finditerAux_pairwise

/-!
## C5: the key indexer round trip
-/

theorem mem_decDigitsAux_lt {d : Nat} :
    ∀ {fuel n : Nat}, d ∈ decDigitsAux fuel n → d < 10 := by
  intro fuel
  induction fuel with
  | zero => intro n h; simp [decDigitsAux] at h
  | succ fuel ih =>
    intro n h
    unfold decDigitsAux at h
    split at h
    · cases h
    · rcases List.mem_cons.mp h with rfl | h'
      · omega
      · exact ih h'

theorem digitChar_isDigit {d : Nat} (hd : d < 10) : (digitChar d).isDigit = true := by
  interval_cases d <;> decide

theorem decChars_isDigit {n : Nat} : ∀ c ∈ decChars n, c.isDigit = true := by
  intro c hc
  unfold decChars at hc
  split at hc
  · rw [List.mem_singleton] at hc
    subst hc
    decide
  · rw [List.mem_reverse, List.mem_map] at hc
    obtain ⟨d, hd, rfl⟩ := hc
    exact digitChar_isDigit (mem_decDigitsAux_lt hd)

theorem decChars_ne_nil {n : Nat} : decChars n ≠ [] := by
  unfold decChars
  split
  · simp
  · rename_i hn
    intro h
    rw [List.reverse_eq_nil_iff, List.map_eq_nil_iff] at h
    cases n with
    | zero => exact hn rfl
    | succ m =>
      unfold decDigitsAux at h
      rw [if_neg hn] at h
      cases h

theorem takeWhile_append_stop {p : Char → Bool} :
    ∀ {a : Str} {x : Char} {b : Str}, (∀ c ∈ a, p c = true) → p x = false →
      (a ++ x :: b).takeWhile p = a := by
  intro a
  induction a with
  | nil =>
    intro x b _ hx
    simp only [List.nil_append]
    rw [List.takeWhile_cons_of_neg (by simp [hx])]
  | cons c cs ih =>
    intro x b ha hx
    have hc : p c = true := ha c (List.mem_cons_self _ _)
    simp only [List.cons_append]
    rw [List.takeWhile_cons_of_pos hc,
      ih (fun c' hc' => ha c' (List.mem_cons_of_mem _ hc')) hx]

/-- C5 counterexample: `stripIndexPrefix` is not idempotent — on a key whose
bare form itself carries an index prefix, a second strip removes a second
prefix. -/
theorem C5_counterexample :
    remove_index_prefix_from_key
        (remove_index_prefix_from_key (("001:002:x").data)) ≠
      remove_index_prefix_from_key (("001:002:x").data) := by decide

/-- C5 (amended): stripping after applying an index prefix restores the key,
for every key and every position; and on keys carrying no numeric index
prefix the strip is a no-op (hence idempotent there). -/
theorem C5_amended :
    (∀ (key : Str) (n : Nat),
        remove_index_prefix_from_key (add_index_prefix_to_key key n) = key) ∧
    (∀ key : Str, ¬ hasIndexPfx key →
        remove_index_prefix_from_key key = key ∧
        remove_index_prefix_from_key (remove_index_prefix_from_key key) =
          remove_index_prefix_from_key key) := by
  constructor
  · intro key n
    unfold add_index_prefix_to_key
    set d := decChars n with hd
    set P : Str := List.replicate (3 - d.length) '0' ++ d with hP
    have hPd : ∀ c ∈ P, c.isDigit = true := by
      intro c hc
      rw [hP, List.mem_append] at hc
      rcases hc with hc | hc
      · rw [List.eq_of_mem_replicate hc]; decide
      · exact decChars_isDigit c hc
    have hPne : P ≠ [] := by
      rw [hP]
      intro h
      rw [List.append_eq_nil] at h
      exact decChars_ne_nil h.2
    have hcolon : (':' : Char).isDigit = false := by decide
    unfold remove_index_prefix_from_key
    have htw : (P ++ ':' :: key).takeWhile (fun c => c.isDigit) = P :=
      takeWhile_append_stop hPd hcolon
    rw [htw]
    have hget : (P ++ ':' :: key).get? P.length = some ':' := by
      rw [List.get?_append_right (Nat.le_refl _)]
      simp
    rw [if_pos ⟨hPne, hget⟩]
    have : P ++ ':' :: key = (P ++ [':']) ++ key := by simp
    rw [this]
    have hlen : P.length + 1 = (P ++ [':']).length := by simp
    rw [hlen, List.drop_left]
  · intro key hno
    have h1 : remove_index_prefix_from_key key = key := by
      unfold remove_index_prefix_from_key
      exact if_neg hno
    exact ⟨h1, by rw [h1, h1]⟩

/-- C5 witness: the round trip and the no-op at concrete inputs. -/
theorem C5_witness :
    remove_index_prefix_from_key (add_index_prefix_to_key (("some.key").data) 12) =
        ("some.key").data ∧
    remove_index_prefix_from_key (("some.key").data) = ("some.key").data :=
  ⟨C5_amended.1 (("some.key").data) 12, (C5_amended.2 (("some.key").data) (by decide)).1⟩

/-!
## C7: which malformed declarations make extraction fail
-/

/-- C7 counterexample: a key containing a tab (whitespace, but not a space)
does not make extraction fail — the source only rejects the space
character. -/
theorem C7_counterexample :
    get_localizable_strings_from_markdown c7doc ≠ none ∧
    (all_matches c7doc).map (rawKey c7doc) = [['a', '\t', 'b']] ∧
    pyIsSpace '\t' = true := by
  refine ⟨by decide, by decide, by decide⟩

/-- C7 (amended): extraction fails whenever an extracted declaration's key
contains a space character (not: any whitespace), whenever its key or value
is empty, and whenever any of its condition, value, key, or comment contains
one of the reserved substrings. -/
theorem C7_amended (md : Str) (fm : Form × MatchRes) (hmem : fm ∈ all_matches md)
    (hbad : (rawKey md fm).contains ' ' = true ∨ rawKey md fm = [] ∨ rawValue md fm = [] ∨
      reservedOk (rawCondition md fm) = false ∨ reservedOk (rawValue md fm) = false ∨
      reservedOk (rawKey md fm) = false ∨ reservedOk (rawComment md fm) = false) :
    get_localizable_strings_from_markdown md = none := by
  by_contra h
  obtain ⟨l, hl⟩ := Option.ne_none_iff_exists'.mp h
  obtain ⟨d, hd⟩ := mapOpt_forall_some hl fm hmem
  obtain ⟨_, hsp, hk, hv, hrc, hrv, hrk, hrcm⟩ := processMatch_some_facts hd
  rcases hbad with hb | hb | hb | hb | hb | hb | hb
  · rw [hsp] at hb; cases hb
  · exact hk hb
  · exact hv hb
  · rw [hrc] at hb; cases hb
  · rw [hrv] at hb; cases hb
  · rw [hrk] at hb; cases hb
  · rw [hrcm] at hb; cases hb

/-- C7 witness: at a concrete document whose inline key contains a space,
extraction fails. -/
theorem C7_witness : get_localizable_strings_from_markdown c7bad = none :=
  C7_amended c7bad ((all_matches c7bad).get ⟨0, by decide⟩)
    (List.get_mem _ _ _) (Or.inl (by decide))

/-!
## C1: the order of extracted declarations
-/

/-- C1 counterexample: in a document whose block declaration precedes its
inline declaration, extraction succeeds but returns the inline declaration
first — the match positions are not in increasing document order. -/
theorem C1_counterexample :
    get_localizable_strings_from_markdown c1doc = some c1decls ∧
    ¬ List.Pairwise (· ≤ ·) ((all_matches c1doc).map (fun fm => fm.2.mstart)) :=
  ⟨by decide, by decide⟩

/-- C1 (amended): the extractor returns all inline declarations first and all
block declarations after them; within each syntactic form the matches are at
strictly increasing document positions; and the output corresponds
one-to-one, in order, to this inline-then-block match list (each
declaration's `full_match` is the matched slice). -/
theorem C1_amended (md : Str) (l : List LocalizedStringData)
    (h : get_localizable_strings_from_markdown md = some l) :
    (∃ a b, all_matches md = a ++ b ∧ (∀ x ∈ a, x.1 = Form.inline) ∧
      (∀ x ∈ b, x.1 = Form.block) ∧
      List.Pairwise (fun m m' => m.2.mstart < m'.2.mstart) a ∧
      List.Pairwise (fun m m' => m.2.mstart < m'.2.mstart) b) ∧
    l.length = (all_matches md).length ∧
    ∀ i (hi : i < l.length) (hj : i < (all_matches md).length),
      (l.get ⟨i, hi⟩).full_match =
        slice md ((all_matches md).get ⟨i, hj⟩).2.mstart
          ((all_matches md).get ⟨i, hj⟩).2.mend := by
  obtain ⟨hlen, hget⟩ := mapOpt_some_get h
  refine ⟨?_, ?_, ?_⟩
  · refine ⟨(finditer md inlineToks).map (fun m => (Form.inline, m)),
      (finditer md blockToks).map (fun m => (Form.block, m)), rfl, ?_, ?_, ?_, ?_⟩
    · intro x hx; rw [List.mem_map] at hx; obtain ⟨m, _, rfl⟩ := hx; rfl
    · intro x hx; rw [List.mem_map] at hx; obtain ⟨m, _, rfl⟩ := hx; rfl
    · rw [List.pairwise_map]; exact finditer_pairwise
    · rw [List.pairwise_map]; exact finditer_pairwise
  · exact hlen
  · intro i hi hj
    exact (processMatch_some_facts (hget i hj hi)).1

/-- C1 witness: the amended ordering facts at the concrete document. -/
theorem C1_witness :
    (∃ a b, all_matches c1doc = a ++ b ∧ (∀ x ∈ a, x.1 = Form.inline) ∧
      (∀ x ∈ b, x.1 = Form.block) ∧
      List.Pairwise (fun m m' => m.2.mstart < m'.2.mstart) a ∧
      List.Pairwise (fun m m' => m.2.mstart < m'.2.mstart) b) ∧
    c1decls.length = (all_matches c1doc).length ∧
    ∀ i (hi : i < c1decls.length) (hj : i < (all_matches c1doc).length),
      (c1decls.get ⟨i, hi⟩).full_match =
        slice c1doc ((all_matches c1doc).get ⟨i, hj⟩).2.mstart
          ((all_matches c1doc).get ⟨i, hj⟩).2.mend :=
  C1_amended c1doc c1decls (by decide)

/-!
## Association-list lemmas (dict mechanics)
-/

theorem assocGet_append {β : Type} (a b : List (Str × β)) (k : Str) :
    assocGet (a ++ b) k =
      match assocGet a k with
      | some v => some v
      | none => assocGet b k := by
  induction a with
  | nil => simp [assocGet]
  | cons kv rest ih =>
    obtain ⟨k0, v0⟩ := kv
    simp only [List.cons_append, assocGet]
    by_cases hk : k0 = k
    · simp [hk]
    · rw [if_neg hk, if_neg hk]
      exact ih

theorem assocGet_none_of_not_any {β : Type} {m : List (Str × β)} {k : Str}
    (h : m.any (fun kv => kv.1 = k) = false) : assocGet m k = none := by
  induction m with
  | nil => rfl
  | cons kv rest ih =>
    rw [List.any_cons, Bool.or_eq_false_iff] at h
    unfold assocGet
    rw [if_neg (by simpa using h.1)]
    exact ih h.2

theorem assocGet_map_replace_ne {β : Type} (m : List (Str × β)) (k : Str) (v : β) {k' : Str}
    (h : k' ≠ k) :
    assocGet (m.map (fun kv => if kv.1 = k then (k, v) else kv)) k' = assocGet m k' := by
  induction m with
  | nil => rfl
  | cons kv rest ih =>
    simp only [List.map_cons]
    by_cases hk : kv.1 = k
    · rw [if_pos hk]
      unfold assocGet
      rw [if_neg (fun hh => h hh.symm), if_neg (fun hh => h (hk ▸ hh).symm)]
      exact ih
    · rw [if_neg hk]
      unfold assocGet
      by_cases hq : kv.1 = k'
      · rw [if_pos hq, if_pos hq]
      · rw [if_neg hq, if_neg hq]
        exact ih

theorem assocGet_map_replace_eq {β : Type} {m : List (Str × β)} {k : Str} (v : β)
    (h : m.any (fun kv => kv.1 = k) = true) :
    assocGet (m.map (fun kv => if kv.1 = k then (k, v) else kv)) k = some v := by
  induction m with
  | nil => simp at h
  | cons kv rest ih =>
    simp only [List.map_cons]
    by_cases hk : kv.1 = k
    · rw [if_pos hk]
      unfold assocGet
      rw [if_pos rfl]
    · rw [if_neg hk]
      unfold assocGet
      rw [if_neg hk]
      apply ih
      rw [List.any_cons] at h
      rcases Bool.or_eq_true_iff.mp h with h' | h'
      · exact absurd (of_decide_eq_true h') hk
      · exact h'

theorem assocGet_assocSet {β : Type} (m : List (Str × β)) (k : Str) (v : β) (k' : Str) :
    assocGet (assocSet m k v) k' = if k' = k then some v else assocGet m k' := by
  unfold assocSet
  by_cases hany : m.any (fun kv => kv.1 = k) = true
  · rw [if_pos hany]
    by_cases hk : k' = k
    · subst hk
      rw [if_pos rfl]
      exact assocGet_map_replace_eq v hany
    · rw [if_neg hk]
      exact assocGet_map_replace_ne m k v hk
  · rw [if_neg hany, assocGet_append]
    have h0 : assocGet m k = none :=
      assocGet_none_of_not_any (Bool.eq_false_iff.mpr hany)
    by_cases hk : k' = k
    · subst hk
      rw [h0, if_pos rfl]
      simp [assocGet]
    · rw [if_neg hk]
      cases hmk : assocGet m k' with
      | some w => simp
      | none =>
        simp only
        unfold assocGet
        rw [if_neg (fun hh => hk hh.symm)]
        rfl

theorem cntGet_cntIncr (m : List (Str × Nat)) (st st' : Str) :
    cntGet (cntIncr m st) st' = if st' = st then cntGet m st' + 1 else cntGet m st' := by
  unfold cntIncr
  cases hg : assocGet m st with
  | some n =>
    unfold cntGet
    rw [assocGet_assocSet]
    by_cases h : st' = st
    · subst h
      rw [if_pos rfl, if_pos rfl, hg]
      rfl
    · rw [if_neg h, if_neg h]
  | none =>
    unfold cntGet
    rw [assocGet_append]
    by_cases h : st' = st
    · subst h
      rw [hg, if_pos rfl]
      simp [assocGet]
    · rw [if_neg h]
      cases hg' : assocGet m st' with
      | some w => simp
      | none =>
        simp only
        unfold assocGet
        rw [if_neg (fun hh => h hh.symm)]
        rfl

theorem assocGet_countsIncr (m : List (Str × List (Str × Nat))) (L st L' : Str) :
    assocGet (countsIncr m L st) L' =
      if L' = L then some (cntIncr ((assocGet m L).getD []) st) else assocGet m L' := by
  unfold countsIncr
  cases hg : assocGet m L with
  | some inner =>
    rw [assocGet_assocSet]
    rfl
  | none =>
    rw [assocGet_append]
    by_cases h : L' = L
    · subst h
      rw [hg, if_pos rfl]
      simp [assocGet]
    · rw [if_neg h]
      cases hg' : assocGet m L' with
      | some w => simp
      | none =>
        simp only
        unfold assocGet
        rw [if_neg (fun hh => h hh.symm)]
        rfl

theorem assocGet_missIncr (m : List (Str × List Str)) (L k L' : Str) :
    assocGet (missIncr m L k) L' =
      if L' = L then some (((assocGet m L).getD []) ++ [k]) else assocGet m L' := by
  unfold missIncr
  cases hg : assocGet m L with
  | some l =>
    rw [assocGet_assocSet]
    rfl
  | none =>
    rw [assocGet_append]
    by_cases h : L' = L
    · subst h
      rw [hg, if_pos rfl]
      simp [assocGet]
    · rw [if_neg h]
      cases hg' : assocGet m L' with
      | some w => simp
      | none =>
        simp only
        unfold assocGet
        rw [if_neg (fun hh => h hh.symm)]
        rfl

theorem nodup_filter_single {locales : List Str} (hnd : locales.Nodup) {L' : Str}
    (hL : L' ∈ locales) (q : Str → Bool) :
    (locales.filter (fun L => decide (L = L') && q L)).length = if q L' then 1 else 0 := by
  induction locales with
  | nil => cases hL
  | cons l ls ih =>
    rw [List.filter_cons]
    rcases List.mem_cons.mp hL with rfl | hmem
    · have hnotin : L' ∉ ls := (List.nodup_cons.mp hnd).1
      have hrest : (ls.filter (fun L => decide (L = L') && q L)).length = 0 := by
        rw [List.length_eq_zero, List.filter_eq_nil_iff]
        intro a ha
        simp only [Bool.and_eq_true, decide_eq_true_eq, not_and]
        intro haL
        exact absurd (haL ▸ ha) hnotin
      by_cases hq : q L' = true
      · simp [hq, hrest]
      · simp [Bool.eq_false_iff.mpr hq, hrest]
    · by_cases hl : l = L'
      · exact absurd (hl ▸ hmem) ((List.nodup_cons.mp hnd).1)
      · have : (decide (l = L') && q l) = false := by simp [hl]
        rw [this]
        simp only [Bool.false_eq_true, if_false]
        exact ih (List.nodup_cons.mp hnd).2 hmem

/-!
## The counting and missing-keys folds compute the declarative counts
-/

theorem innerCnt_tableGet (kv : Str × StringEntryM) (L' st' : Str) :
    ∀ (locales : List Str) (m : List (Str × List (Str × Nat))),
      cntGet ((assocGet
          (locales.foldl (fun m' L => countsIncr m' L (state_of kv.2 L)) m) L').getD []) st' =
        cntGet ((assocGet m L').getD []) st' +
          (locales.filter
            (fun L => decide (L = L') && decide (state_of kv.2 L = st'))).length := by
  intro locales
  induction locales with
  | nil => intro m; simp
  | cons l ls ih =>
    intro m
    simp only [List.foldl_cons, List.filter_cons]
    rw [ih]
    rw [assocGet_countsIncr]
    by_cases hL : L' = l
    · rw [if_pos hL]
      subst hL
      simp only [Option.getD_some]
      rw [cntGet_cntIncr]
      by_cases hst : st' = state_of kv.2 L'
      · rw [if_pos hst]
        subst hst
        simp
        omega
      · rw [if_neg hst]
        have hc : decide (state_of kv.2 L' = st') = false := by
          simp
          exact fun h => hst h.symm
        simp [hc]
    · rw [if_neg hL]
      have hc : decide (l = L') = false := by
        simp
        exact fun h => hL h.symm
      simp [hc]

theorem innerCnt_isSome (kv : Str × StringEntryM) (L' : Str) :
    ∀ (locales : List Str) (m : List (Str × List (Str × Nat))),
      (L' ∈ locales ∨ (assocGet m L').isSome = true) →
      (assocGet
        (locales.foldl (fun m' L => countsIncr m' L (state_of kv.2 L)) m) L').isSome = true := by
  intro locales
  induction locales with
  | nil =>
    intro m h
    rcases h with h | h
    · cases h
    · exact h
  | cons l ls ih =>
    intro m h
    simp only [List.foldl_cons]
    apply ih
    by_cases hL : L' = l
    · right
      rw [assocGet_countsIncr, if_pos hL]
      rfl
    · rcases h with h | h
      · rcases List.mem_cons.mp h with h' | h'
        · exact absurd h' hL
        · exact Or.inl h'
      · right
        rw [assocGet_countsIncr, if_neg hL]
        exact h

theorem countsFold_tableGet {locales : List Str} (hnd : locales.Nodup) {L' : Str}
    (hL : L' ∈ locales) (st' : Str) :
    ∀ (pairs : List (Str × StringEntryM)) (m : List (Str × List (Str × Nat))),
      cntGet ((assocGet
          (pairs.foldl
            (fun m' kv => locales.foldl (fun m'' L => countsIncr m'' L (state_of kv.2 L)) m')
            m) L').getD []) st' =
        cntGet ((assocGet m L').getD []) st' +
          (pairs.filter (fun kv => decide (state_of kv.2 L' = st'))).length := by
  intro pairs
  induction pairs with
  | nil => intro m; simp
  | cons kv ps ih =>
    intro m
    simp only [List.foldl_cons, List.filter_cons]
    rw [ih, innerCnt_tableGet]
    rw [nodup_filter_single hnd hL (fun L => decide (state_of kv.2 L = st'))]
    by_cases hst : state_of kv.2 L' = st'
    · rw [if_pos (by simpa using hst)]
      simp only [decide_eq_true_eq]
      rw [if_pos hst]
      simp only [List.length_cons]
      omega
    · rw [if_neg (by simpa using hst)]
      simp only [decide_eq_true_eq]
      rw [if_neg hst]
      omega

theorem countsFold_isSome {locales : List Str} {L' : Str} (hL : L' ∈ locales) :
    ∀ (pairs : List (Str × StringEntryM)) (m : List (Str × List (Str × Nat))),
      (pairs ≠ [] ∨ (assocGet m L').isSome = true) →
      (assocGet
        (pairs.foldl
          (fun m' kv => locales.foldl (fun m'' L => countsIncr m'' L (state_of kv.2 L)) m')
          m) L').isSome = true := by
  intro pairs
  induction pairs with
  | nil =>
    intro m h
    rcases h with h | h
    · exact absurd rfl h
    · exact h
  | cons kv ps ih =>
    intro m _
    simp only [List.foldl_cons]
    apply ih
    right
    exact innerCnt_isSome kv L' locales m (Or.inl hL)

theorem innerMiss_getD (kv : Str × StringEntryM) (L' : Str) :
    ∀ (locales : List Str), locales.Nodup →
      ∀ (m : List (Str × List Str)),
      ((assocGet
          (locales.foldl
            (fun m' L =>
              if shouldTranslateStates.contains (state_of kv.2 L) then missIncr m' L kv.1
              else m') m) L').getD []) =
        ((assocGet m L').getD []) ++
          (if L' ∈ locales ∧ shouldTranslateStates.contains (state_of kv.2 L') = true
           then [kv.1] else []) := by
  intro locales
  induction locales with
  | nil =>
    intro _ m
    simp
  | cons l ls ih =>
    intro hnd m
    simp only [List.foldl_cons]
    rw [ih (List.nodup_cons.mp hnd).2]
    by_cases hL : L' = l
    · subst hL
      have hnotin : L' ∉ ls := (List.nodup_cons.mp hnd).1
      have hm : ¬ (L' ∈ ls ∧ shouldTranslateStates.contains (state_of kv.2 L') = true) :=
        fun h => hnotin h.1
      rw [if_neg hm]
      simp only [List.append_nil]
      by_cases hc : shouldTranslateStates.contains (state_of kv.2 L') = true
      · rw [if_pos hc, assocGet_missIncr, if_pos rfl]
        have : (L' ∈ L' :: ls ∧ shouldTranslateStates.contains (state_of kv.2 L') = true) := by
          exact ⟨List.mem_cons_self _ _, hc⟩
        rw [if_pos this]
        simp
      · rw [if_neg hc]
        have : ¬ (L' ∈ L' :: ls ∧ shouldTranslateStates.contains (state_of kv.2 L') = true) := by
          intro h
          exact hc h.2
        rw [if_neg this]
        simp
    · have hstep : ((assocGet
          (if shouldTranslateStates.contains (state_of kv.2 l) then missIncr m l kv.1 else m)
          L').getD []) = ((assocGet m L').getD []) := by
        by_cases hc : shouldTranslateStates.contains (state_of kv.2 l) = true
        · rw [if_pos hc, assocGet_missIncr, if_neg hL]
        · rw [if_neg hc]
      rw [hstep]
      have hmem : (L' ∈ l :: ls ∧ shouldTranslateStates.contains (state_of kv.2 L') = true) ↔
          (L' ∈ ls ∧ shouldTranslateStates.contains (state_of kv.2 L') = true) := by
        constructor
        · rintro ⟨h1, h2⟩
          rcases List.mem_cons.mp h1 with h' | h'
          · exact absurd h' hL
          · exact ⟨h', h2⟩
        · rintro ⟨h1, h2⟩
          exact ⟨List.mem_cons_of_mem _ h1, h2⟩
      by_cases hfull : L' ∈ ls ∧ shouldTranslateStates.contains (state_of kv.2 L') = true
      · rw [if_pos hfull, if_pos (hmem.mpr hfull)]
      · rw [if_neg hfull, if_neg (fun h => hfull (hmem.mp h))]

theorem missingFold_getD {locales : List Str} (hnd : locales.Nodup) {L' : Str}
    (hL : L' ∈ locales) :
    ∀ (pairs : List (Str × StringEntryM)) (m : List (Str × List Str)),
      ((assocGet
          (pairs.foldl
            (fun m' kv =>
              locales.foldl
                (fun m'' L =>
                  if shouldTranslateStates.contains (state_of kv.2 L) then missIncr m'' L kv.1
                  else m'') m') m) L').getD []) =
        ((assocGet m L').getD []) ++
          ((pairs.filter
            (fun kv => shouldTranslateStates.contains (state_of kv.2 L'))).map
              (fun kv => kv.1)) := by
  intro pairs
  induction pairs with
  | nil => intro m; simp
  | cons kv ps ih =>
    intro m
    simp only [List.foldl_cons, List.filter_cons]
    rw [ih, innerMiss_getD kv L' locales hnd]
    by_cases hc : shouldTranslateStates.contains (state_of kv.2 L') = true
    · rw [if_pos ⟨hL, hc⟩, if_pos hc]
      simp
    · rw [if_neg (fun h => hc h.2), if_neg hc]
      simp

/-!
## The final progress loop
-/

theorem buildProgress_get {missing : List (Str × List Str)} :
    ∀ {table : List (Str × List (Str × Nat))} {res : List (Str × ProgressEntry)},
      buildProgress missing table = some res →
      ∀ (L : Str) (sc : List (Str × Nat)), assocGet table L = some sc →
        (cntGet sc stTranslated + cntGet sc stNew + cntGet sc stNeedsReview +
            cntGet sc stIndeterminate ≠ 0) ∧
        assocGet res L = some
          ⟨cntGet sc stTranslated,
            cntGet sc stTranslated + cntGet sc stNew + cntGet sc stNeedsReview +
              cntGet sc stIndeterminate,
            ((cntGet sc stTranslated : ℚ) /
              ((cntGet sc stTranslated + cntGet sc stNew + cntGet sc stNeedsReview +
                cntGet sc stIndeterminate : Nat) : ℚ)),
            missing⟩ := by
  intro table
  induction table with
  | nil =>
    intro res _ L sc hsc
    cases hsc
  | cons hd rest ih =>
    obtain ⟨L0, sc0⟩ := hd
    intro res h L sc hsc
    unfold buildProgress at h
    dsimp only at h
    by_cases htt : cntGet sc0 stTranslated + cntGet sc0 stNew + cntGet sc0 stNeedsReview +
        cntGet sc0 stIndeterminate = 0
    · rw [if_pos htt] at h
      cases h
    · rw [if_neg htt] at h
      cases hrec : buildProgress missing rest with
      | none => rw [hrec] at h; cases h
      | some acc =>
        rw [hrec] at h
        rw [show Option.map (fun acc => (L0, (⟨cntGet sc0 stTranslated, cntGet sc0 stTranslated + cntGet sc0 stNew + cntGet sc0 stNeedsReview + cntGet sc0 stIndeterminate, ((cntGet sc0 stTranslated : ℚ) / ((cntGet sc0 stTranslated + cntGet sc0 stNew + cntGet sc0 stNeedsReview + cntGet sc0 stIndeterminate : Nat) : ℚ)), missing⟩ : ProgressEntry)) :: acc) (some acc) = some ((L0, (⟨cntGet sc0 stTranslated, cntGet sc0 stTranslated + cntGet sc0 stNew + cntGet sc0 stNeedsReview + cntGet sc0 stIndeterminate, ((cntGet sc0 stTranslated : ℚ) / ((cntGet sc0 stTranslated + cntGet sc0 stNew + cntGet sc0 stNeedsReview + cntGet sc0 stIndeterminate : Nat) : ℚ)), missing⟩ : ProgressEntry)) :: acc) from rfl] at h
        cases h
        unfold assocGet at hsc
        by_cases hLe : L0 = L
        · rw [if_pos hLe] at hsc
          cases hsc
          constructor
          · exact htt
          · unfold assocGet
            rw [if_pos hLe]
        · rw [if_neg hLe] at hsc
          have := ih hrec L sc hsc
          refine ⟨this.1, ?_⟩
          unfold assocGet
          rw [if_neg hLe]
          exact this.2

/-!
## C2: the per-locale progress counts and percentage
-/

/-- C2 counterexample: on a catalog whose only key is `stale` for `de`, the
to-translate count is zero and the function raises `ZeroDivisionError`
instead of returning a record with percentage `1.0`. -/
theorem C2_counterexample :
    get_localization_progress [objZero] [("de").data] = none := by decide

/-- C2 (amended): for every catalog list and locale `L` among the (distinct)
translation locales, when the function returns, `L`'s record counts
`translated` as the occurrences in state `translated` and `to_translate` as
those plus the `new`/`needs_review`/indeterminate occurrences (stale and
dont-translate excluded), with `percentage = translated / toTranslate`; when
`toTranslate = 0` the function does not return (`ZeroDivisionError`), rather
than producing percentage `1.0`. -/
theorem C2_amended (objs : List XCStrings) (locales : List Str) (L : Str)
    (res : List (Str × ProgressEntry))
    (hnd : locales.Nodup) (hL : L ∈ locales)
    (h : get_localization_progress objs locales = some res)
    (hne : all_key_entries objs ≠ []) :
    ∃ e, assocGet res L = some e ∧
      e.translated = countState objs L stTranslated ∧
      e.to_translate = countState objs L stTranslated + countState objs L stNew +
        countState objs L stNeedsReview + countState objs L stIndeterminate ∧
      0 < e.to_translate ∧
      e.percentage = (e.translated : ℚ) / (e.to_translate : ℚ) := by
  unfold get_localization_progress at h
  dsimp only at h
  split at h
  · have hsome := countsFold_isSome hL (all_key_entries objs) [] (Or.inl hne)
    obtain ⟨sc, hsc⟩ := Option.isSome_iff_exists.mp hsome
    have hcnt : ∀ st, cntGet sc st = countState objs L st := by
      intro st
      have htab := countsFold_tableGet hnd hL st (all_key_entries objs) []
      rw [hsc] at htab
      simpa [assocGet, cntGet, countState] using htab
    have hbp := buildProgress_get h L sc hsc
    obtain ⟨httne, hres⟩ := hbp
    refine ⟨_, hres, ?_, ?_, ?_, ?_⟩
    · simpa using hcnt stTranslated
    · simp only
      rw [hcnt stTranslated, hcnt stNew, hcnt stNeedsReview, hcnt stIndeterminate]
    · simpa using Nat.pos_of_ne_zero httne
    · push_cast
      rfl
  · cases h

/-- C2 witness: the amended statement at a concrete catalog (one key
translated, one new, for locale `de`). -/
theorem C2_witness :
    ∃ res e, get_localization_progress [objAB] [("de").data] = some res ∧
      assocGet res (("de").data) = some e ∧
      e.translated = 1 ∧ e.to_translate = 2 ∧ 0 < e.to_translate ∧
      e.percentage = (e.translated : ℚ) / (e.to_translate : ℚ) := by
  obtain ⟨e, h1, h2, h3, h4, h5⟩ :=
    C2_amended [objAB] [("de").data] (("de").data) _ (by decide) (by decide) rfl (by decide)
  refine ⟨_, e, rfl, h1, ?_, ?_, h4, h5⟩
  · rw [h2]; decide
  · rw [h3]; decide

/-!
## C6: what the per-locale record's missing-keys field holds
-/

/-- C6: the source stores, under the dict key `'missing_keys:'` (note the
trailing colon, contradicting the function's own docstring key
`'missing_keys'`), the whole locale-to-missing-keys table in every record:
locale `de` (no missing keys of its own, `missingList = []`) gets the table
`{fr: [k]}` rather than its own empty list. -/
theorem C6_code_divergence :
    ∃ res pede, get_localization_progress [objTwo] [("de").data, ("fr").data] = some res ∧
      assocGet res (("de").data) = some pede ∧
      pede.missing_keys_colon = [((("fr").data), [("k").data])] ∧
      missingList [objTwo] (("de").data) = [] := by
  refine ⟨_, _, rfl, rfl, ?_, by decide⟩
  decide

/-!
## C10: entries without a unit (or without a state) count as to-translate
-/

/-- C10: an entry whose `shouldTranslate` is not false and which has no unit
(or a unit with no state) for locale `L` is classified indeterminate, counted
as to-translate, and its key appears in `L`'s list inside the missing-keys
table stored in the result. -/
theorem C10_thm (objs : List XCStrings) (locales : List Str) (L k : Str)
    (e : StringEntryM) (res : List (Str × ProgressEntry))
    (hnd : locales.Nodup) (hL : L ∈ locales)
    (hmem : (k, e) ∈ all_key_entries objs)
    (hshould : e.shouldTranslate ≠ some false)
    (hunit : assocGet (e.localizations.getD []) L = none ∨
      (∃ loc, assocGet (e.localizations.getD []) L = some loc ∧ loc.stringUnit = none) ∨
      (∃ loc su, assocGet (e.localizations.getD []) L = some loc ∧
        loc.stringUnit = some su ∧ su.state = none))
    (h : get_localization_progress objs locales = some res) :
    state_of e L = stIndeterminate ∧
    k ∈ missingList objs L ∧
    ∃ pe ml, assocGet res L = some pe ∧
      assocGet pe.missing_keys_colon L = some ml ∧ k ∈ ml := by
  have hstate : state_of e L = stIndeterminate := by
    unfold state_of
    have hsh : ¬ (e.shouldTranslate.getD true = false) := by
      cases hopt : e.shouldTranslate with
      | none => simp
      | some b =>
        cases b with
        | false => exact absurd hopt hshould
        | true => simp
    rw [if_neg hsh]
    rcases hunit with h1 | ⟨loc, h1, h2⟩ | ⟨loc, su, h1, h2, h3⟩
    · rw [h1]
    · simp only [h1, h2]
    · simp only [h1, h2, h3]
      rfl
  have hmiss : k ∈ missingList objs L := by
    unfold missingList
    rw [List.mem_map]
    refine ⟨(k, e), List.mem_filter.mpr ⟨hmem, ?_⟩, rfl⟩
    simp only [hstate]
    decide
  refine ⟨hstate, hmiss, ?_⟩
  unfold get_localization_progress at h
  dsimp only at h
  split at h
  · have hne : all_key_entries objs ≠ [] := List.ne_nil_of_mem hmem
    have hsome := countsFold_isSome hL (all_key_entries objs) [] (Or.inl hne)
    obtain ⟨sc, hsc⟩ := Option.isSome_iff_exists.mp hsome
    obtain ⟨_, hres⟩ := buildProgress_get h L sc hsc
    refine ⟨_, ?_, hres, ?_⟩
    · exact (missingList objs L)
    · simp only
      have hmf2 : ((assocGet (missingFold (all_key_entries objs) locales) L).getD []) =
          missingList objs L := by
        unfold missingFold missingList
        have := missingFold_getD hnd hL (all_key_entries objs) []
        simpa [assocGet] using this
      constructor
      · cases hma : assocGet (missingFold (all_key_entries objs) locales) L with
        | none =>
          rw [hma] at hmf2
          simp only [Option.getD_none] at hmf2
          rw [← hmf2] at hmiss
          cases hmiss
        | some ml =>
          rw [hma] at hmf2
          simp only [Option.getD_some] at hmf2
          rw [hmf2]
      · exact hmiss
  · cases h

/-- C10 witness: a key with no unit at all for `de` lands in `de`'s missing
list inside the returned record. -/
theorem C10_witness :
    ∃ res, get_localization_progress [objNoUnit] [("de").data] = some res ∧
      state_of (⟨none, some []⟩ : StringEntryM) (("de").data) = stIndeterminate ∧
      ("k").data ∈ missingList [objNoUnit] (("de").data) ∧
      ∃ pe ml, assocGet res (("de").data) = some pe ∧
        assocGet pe.missing_keys_colon (("de").data) = some ml ∧ ("k").data ∈ ml := by
  refine ⟨_, rfl, ?_⟩
  exact C10_thm [objNoUnit] [("de").data] (("de").data) (("k").data)
    (⟨none, some []⟩ : StringEntryM) _ (by decide) (by decide) (by decide)
    (by decide) (Or.inl (by decide)) rfl

/-!
## C3: translation resolution with fallback
-/

theorem assocGet_mem {β : Type} :
    ∀ {m : List (Str × β)} {k : Str} {v : β}, assocGet m k = some v → (k, v) ∈ m := by
  intro m
  induction m with
  | nil => intro k v h; cases h
  | cons kv rest ih =>
    intro k v h
    obtain ⟨k0, v0⟩ := kv
    unfold assocGet at h
    by_cases hk : k0 = k
    · rw [if_pos hk] at h
      cases h
      subst hk
      exact List.mem_cons_self _ _
    · rw [if_neg hk] at h
      exact List.mem_cons_of_mem _ (ih h)

theorem pyLowerS_ne_nil {s : Str} (h : s ≠ []) : pyLowerS s ≠ [] := by
  intro hc
  exact h (List.map_eq_nil_iff.mp hc)

theorem negotiateGo_ne_nil {available : List Str} (hav : ∀ a ∈ available, a ≠ []) :
    ∀ {preferred : List Str} {l : Str}, negotiateGo available preferred = some l → l ≠ [] := by
  intro preferred
  induction preferred with
  | nil => intro l h; cases h
  | cons p rest ih =>
    intro l h
    unfold negotiateGo at h
    dsimp only at h
    by_cases hc1 : available.contains (pyLowerS p) = true
    · rw [if_pos hc1] at h
      cases h
      intro hnil
      subst hnil
      exact hav _ (by simpa using hc1) rfl
    · rw [if_neg hc1] at h
      cases hal : assocGet LOCALE_ALIASES (pyLowerS p) with
      | some al =>
        rw [hal] at h
        dsimp only at h
        by_cases hc2 : available.contains (pyLowerS al) = true
        · rw [if_pos hc2] at h
          cases h
          have hmem := assocGet_mem hal
          have htab : ∀ q ∈ LOCALE_ALIASES, q.2 ≠ ([] : Str) := by decide
          exact htab _ hmem
        · rw [if_neg hc2] at h
          by_cases hc3 : (decide ((splitSep '_' p).length > 1) &&
              available.contains (pyLowerS ((splitSep '_' p).headD []))) = true
          · rw [if_pos hc3] at h
            cases h
            intro hnil
            simp only [Bool.and_eq_true] at hc3
            have h3 : pyLowerS ((splitSep '_' p).headD []) ∈ available := by
              simpa using hc3.2
            rw [hnil] at h3
            exact hav _ h3 rfl
          · rw [if_neg hc3] at h
            exact ih h
      | none =>
        rw [hal] at h
        dsimp only at h
        by_cases hc3 : (decide ((splitSep '_' p).length > 1) &&
            available.contains (pyLowerS ((splitSep '_' p).headD []))) = true
        · rw [if_pos hc3] at h
          cases h
          intro hnil
          simp only [Bool.and_eq_true] at hc3
          have h3 : pyLowerS ((splitSep '_' p).headD []) ∈ available := by
            simpa using hc3.2
          rw [hnil] at h3
          exact hav _ h3 rfl
        · rw [if_neg hc3] at h
          exact ih h

theorem negotiateGo_isSome {available : List Str} :
    ∀ {preferred : List Str} {s : Str}, s ∈ preferred → pyLowerS s ∈ available →
      negotiateGo available preferred ≠ none := by
  intro preferred
  induction preferred with
  | nil => intro s h; cases h
  | cons p rest ih =>
    intro s hs hav
    unfold negotiateGo
    dsimp only
    rcases List.mem_cons.mp hs with rfl | hs'
    · rw [if_pos (by simpa using hav)]
      simp
    · by_cases hc1 : available.contains (pyLowerS p) = true
      · rw [if_pos hc1]
        simp
      · rw [if_neg hc1]
        cases hal : assocGet LOCALE_ALIASES (pyLowerS p) with
        | some al =>
          dsimp only
          by_cases hc2 : available.contains (pyLowerS al) = true
          · rw [if_pos hc2]
            simp
          · rw [if_neg hc2]
            by_cases hc3 : (decide ((splitSep '_' p).length > 1) &&
                available.contains (pyLowerS ((splitSep '_' p).headD []))) = true
            · rw [if_pos hc3]
              simp
            · rw [if_neg hc3]
              exact ih hs' hav
        | none =>
          dsimp only
          by_cases hc3 : (decide ((splitSep '_' p).length > 1) &&
              available.contains (pyLowerS ((splitSep '_' p).headD []))) = true
          · rw [if_pos hc3]
            simp
          · rw [if_neg hc3]
            exact ih hs' hav

/-- C3 counterexample: the key's source-locale (`en`) unit holds the value
`Hello`, and with the exact spelling `en` resolution succeeds; but with the
preferred locale spelled `EN`, negotiation returns `EN` (it matches the
lowercased available list), the lookup `localizations['EN']` then raises
`KeyError`, and resolve neither returns a translation nor fails with
`MissingTranslationError`. -/
theorem C3_counterexample :
    get_translation xcEnOnly (("k0").data) (("EN").data) true = .error TErr.keyError ∧
    get_translation xcEnOnly (("k0").data) (("en").data) true =
      .ok ((("Hello").data), ("en").data) :=
  ⟨rfl, rfl⟩

/-- C3 (amended): for every catalog (version `1.0`) and key whose
source-locale spelling is among the stored localization keys, resolve with
allowFallback = true never fails with `MissingTranslationError` (negotiation
always finds a locale, which is non-empty); whenever the negotiated locale is
spelled exactly as a stored key whose unit holds a value, resolve returns
that value with the non-empty negotiated locale.  When the negotiated
spelling is not a stored key, resolve instead fails with a key lookup error,
as the counterexample shows. -/
theorem C3_amended (x : XCStrings) (key preferred : Str) (entry : StringEntryM)
    (locs : List (Str × LocalizationM))
    (hv : x.version = ("1.0").data)
    (he : assocGet x.strings key = some entry)
    (hl : entry.localizations = some locs)
    (hsrc : x.sourceLanguage ∈ locs.map (fun kv => kv.1))
    (hne : x.sourceLanguage ≠ []) :
    get_translation x key preferred true ≠ .error TErr.missingTranslation ∧
    ∃ L, negotiate_locale (preferred :: x.sourceLanguage :: locs.map (fun kv => kv.1))
        (locs.map (fun kv => kv.1)) = some L ∧ L ≠ [] ∧
      ∀ loc su v, assocGet locs L = some loc → loc.stringUnit = some su →
        su.value = some v → get_translation x key preferred true = .ok (v, L) := by
  have havail : ∀ a ∈ ((locs.map (fun kv => kv.1)).filter
      (fun a => a ≠ [])).map pyLowerS, a ≠ ([] : Str) := by
    intro a ha
    rw [List.mem_map] at ha
    obtain ⟨b, hb, rfl⟩ := ha
    rw [List.mem_filter] at hb
    exact pyLowerS_ne_nil (by simpa using hb.2)
  have hlow : pyLowerS x.sourceLanguage ∈ ((locs.map (fun kv => kv.1)).filter
      (fun a => a ≠ [])).map pyLowerS := by
    rw [List.mem_map]
    exact ⟨x.sourceLanguage, List.mem_filter.mpr ⟨hsrc, by simpa using hne⟩, rfl⟩
  have hns : negotiate_locale (preferred :: x.sourceLanguage :: locs.map (fun kv => kv.1))
      (locs.map (fun kv => kv.1)) ≠ none := by
    unfold negotiate_locale
    exact negotiateGo_isSome (List.mem_cons_of_mem _ (List.mem_cons_self _ _)) hlow
  obtain ⟨L, hL⟩ := Option.ne_none_iff_exists'.mp hns
  have hLne : L ≠ [] := by
    apply negotiateGo_ne_nil havail
    unfold negotiate_locale at hL
    exact hL
  have hunf : ∀ (r : Except TErr (Str × Str)),
      (match assocGet locs L with
        | none => Except.error TErr.keyError
        | some loc =>
          match loc.stringUnit with
          | none => Except.error TErr.keyError
          | some su =>
            match su.value with
            | none => Except.error TErr.keyError
            | some v => Except.ok (v, L)) = r →
      get_translation x key preferred true = r := by
    intro r hr
    unfold get_translation
    rw [if_neg (by simp [hv]), he]
    dsimp only
    rw [hl]
    dsimp only
    rw [hL]
    exact hr
  constructor
  · cases hloc : assocGet locs L with
    | none =>
      rw [hunf (Except.error TErr.keyError) (by simp only [hloc])]
      simp
    | some loc =>
      cases hsu : loc.stringUnit with
      | none =>
        rw [hunf (Except.error TErr.keyError) (by simp only [hloc, hsu])]
        simp
      | some su =>
        cases hval : su.value with
        | none =>
          rw [hunf (Except.error TErr.keyError) (by simp only [hloc, hsu, hval])]
          simp
        | some v =>
          rw [hunf (Except.ok (v, L)) (by simp only [hloc, hsu, hval])]
          simp
  · refine ⟨L, hL, hLne, ?_⟩
    intro loc su v hloc hsu hval
    exact hunf (Except.ok (v, L)) (by simp only [hloc, hsu, hval])

/-- C3 witness: the amended statement at the concrete one-key catalog, with
preferred locale `de`; negotiation falls back to the stored source key `en`
and resolution returns `Hello`. -/
theorem C3_witness :
    get_translation xcEnOnly (("k0").data) (("de").data) true ≠
      .error TErr.missingTranslation ∧
    ∃ L, negotiate_locale
        ((("de").data) :: (("en").data) ::
          ([((("en").data),
            (⟨some ⟨some stTranslated, some (("Hello").data)⟩⟩ : LocalizationM))].map
              (fun kv => kv.1)))
        ([((("en").data),
          (⟨some ⟨some stTranslated, some (("Hello").data)⟩⟩ : LocalizationM))].map
            (fun kv => kv.1)) = some L ∧ L ≠ [] ∧
      ∀ loc su v,
        assocGet [((("en").data),
          (⟨some ⟨some stTranslated, some (("Hello").data)⟩⟩ : LocalizationM))] L =
            some loc →
        loc.stringUnit = some su → su.value = some v →
        get_translation xcEnOnly (("k0").data) (("de").data) true = .ok (v, L) :=
  C3_amended xcEnOnly (("k0").data) (("de").data) _ _ rfl rfl rfl
    (by decide) (by decide)

/-!
## C4: the post-sync restore phase
-/

theorem assocSet_append_of_not_mem {β : Type} (m : List (Str × β)) (k : Str) (v : β)
    (h : ¬ k ∈ m.map (fun kv => kv.1)) : assocSet m k v = m ++ [(k, v)] := by
  unfold assocSet
  rw [if_neg]
  intro hc
  rw [List.any_eq_true] at hc
  obtain ⟨kv, hkv, heq⟩ := hc
  exact h (List.mem_map.mpr ⟨kv, hkv, of_decide_eq_true heq⟩)

theorem assocDel_append_of_ne {β : Type} (m : List (Str × β)) (x : Str × β) (k : Str)
    (h : ¬ x.1 = k) : assocDel (m ++ [x]) k = assocDel m k ++ [x] := by
  unfold assocDel
  rw [List.filter_append]
  congr 1
  simp [h]

theorem assocDel_sub_keys {β : Type} (m : List (Str × β)) (k : Str) :
    ((assocDel m k).map (fun kv => kv.1)).Sublist (m.map (fun kv => kv.1)) :=
  (List.filter_sublist m).map (fun kv => kv.1)

theorem assocGet_mem_keys {β : Type} {m : List (Str × β)} {k : Str} {v : β}
    (h : assocGet m k = some v) : k ∈ m.map (fun kv => kv.1) :=
  List.mem_map.mpr ⟨(k, v), assocGet_mem h, rfl⟩

theorem assocDel_values_perm {β : Type} :
    ∀ {m : List (Str × β)} {k : Str} {v : β},
      (m.map (fun kv => kv.1)).Nodup → assocGet m k = some v →
      ((assocDel m k).map (fun kv => kv.2) ++ [v]).Perm (m.map (fun kv => kv.2)) := by
  intro m
  induction m with
  | nil => intro k v _ h; cases h
  | cons kv rest ih =>
    intro k v hnd h
    obtain ⟨k0, v0⟩ := kv
    unfold assocGet at h
    rw [List.map_cons, List.nodup_cons] at hnd
    by_cases hk : k0 = k
    · rw [if_pos hk] at h
      have hv := Option.some.inj h
      subst hv
      subst hk
      have hrest : assocDel ((k0, v0) :: rest) k0 = rest := by
        unfold assocDel
        rw [List.filter_cons]
        have : ¬ (decide (¬ (k0 = k0)) = true) := by simp
        rw [if_neg this]
        apply List.filter_eq_self.mpr
        intro kv hkv
        simp only [decide_eq_true_eq]
        intro hc
        exact hnd.1 (hc ▸ List.mem_map.mpr ⟨kv, hkv, rfl⟩)
      rw [hrest, List.map_cons]
      exact List.perm_append_singleton _ _
    · rw [if_neg hk] at h
      have hdel : assocDel ((k0, v0) :: rest) k = (k0, v0) :: assocDel rest k := by
        unfold assocDel
        rw [List.filter_cons]
        have : (decide (¬ (k0 = k)) = true) := by simpa using hk
        rw [if_pos this]
      rw [hdel, List.map_cons, List.cons_append, List.map_cons]
      exact List.Perm.cons v0 (ih hnd.2 h)

theorem restore_states_keys (strings : List (Str × XEntry)) :
    (restore_states strings).map (fun kv => kv.1) = strings.map (fun kv => kv.1) := by
  unfold restore_states
  induction strings with
  | nil => rfl
  | cons kv rest ih =>
    simp only [List.map_cons, ih]
    congr 1
    split
    · rfl
    · rfl

theorem apply_moves_values_perm :
    ∀ (items : List SyncItem) (m out : List (Str × XEntry)),
      apply_moves m items = some out →
      ((m.map (fun kv => kv.1)).Nodup) →
      (∀ it ∈ items, ∀ kw, it.kwip = some kw → ¬ kw ∈ m.map (fun kv => kv.1)) →
      List.Pairwise
        (fun a b => ∀ ka kb, a.kwip = some ka → b.kwip = some kb → ka ≠ kb) items →
      (out.map (fun kv => kv.2)).Perm (m.map (fun kv => kv.2)) := by
  intro items
  induction items with
  | nil =>
    intro m out h _ _ _
    cases h
    exact List.Perm.refl _
  | cons it rest ih =>
    intro m out h hnd hfresh hdist
    unfold apply_moves at h
    cases hkw : it.kwip with
    | none =>
      rw [hkw] at h
      exact ih m out h hnd
        (fun it' hit' kw hkw' => hfresh it' (List.mem_cons_of_mem _ hit') kw hkw')
        (List.pairwise_cons.mp hdist).2
    | some kw =>
      rw [hkw] at h
      cases hget : assocGet m it.key with
      | none => rw [hget] at h; cases h
      | some v =>
        rw [hget] at h
        dsimp only at h
        have hkwfresh : ¬ kw ∈ m.map (fun kv => kv.1) :=
          hfresh it (List.mem_cons_self _ _) kw hkw
        have hset : assocSet m kw v = m ++ [(kw, v)] :=
          assocSet_append_of_not_mem m kw v hkwfresh
        have hkne : ¬ ((kw, v).1 = it.key) := by
          intro hc
          dsimp only at hc
          exact hkwfresh (by rw [hc]; exact assocGet_mem_keys hget)
        have hdel : assocDel (assocSet m kw v) it.key =
            assocDel m it.key ++ [(kw, v)] := by
          rw [hset]
          exact assocDel_append_of_ne m (kw, v) it.key hkne
        rw [hdel] at h
        set m' := assocDel m it.key ++ [(kw, v)] with hm'
        have hnd' : (m'.map (fun kv => kv.1)).Nodup := by
          rw [hm', List.map_append]
          apply List.Nodup.append
          · exact ((assocDel_sub_keys m it.key).nodup hnd)
          · simp
          · intro a ha hb
            simp only [List.map_cons, List.map_nil, List.mem_singleton] at hb
            subst hb
            exact hkwfresh ((assocDel_sub_keys m it.key).mem ha)
        have hfresh' : ∀ it' ∈ rest, ∀ kw', it'.kwip = some kw' →
            ¬ kw' ∈ m'.map (fun kv => kv.1) := by
          intro it' hit' kw' hkw' hc
          rw [hm', List.map_append] at hc
          rcases List.mem_append.mp hc with hc | hc
          · exact hfresh it' (List.mem_cons_of_mem _ hit') kw' hkw'
              ((assocDel_sub_keys m it.key).mem hc)
          · simp only [List.map_cons, List.map_nil, List.mem_singleton] at hc
            exact (List.pairwise_cons.mp hdist).1 it' hit' kw kw' hkw hkw' hc.symm
        have hperm := ih m' out h hnd' hfresh' (List.pairwise_cons.mp hdist).2
        refine hperm.trans ?_
        rw [hm', List.map_append]
        simp only [List.map_cons, List.map_nil]
        exact assocDel_values_perm hnd hget

/-- C4: after the post-sync restore phase, every entry is either `'manual'`
or a retained `'stale'` entry; stale entries survive unchanged (never
promoted) and non-stale entries reappear with state `'manual'`.  The key
hypotheses encode the data-model invariant that catalog keys are unique and
the re-index prefixes are fresh, distinct keys. -/
theorem C4_thm (strings : List (Str × XEntry)) (items : List SyncItem)
    (out : List (Str × XEntry))
    (h : post_sync_restore strings items = some out)
    (hnodup : (strings.map (fun kv => kv.1)).Nodup)
    (hfresh : ∀ it ∈ items, ∀ kw, it.kwip = some kw → ∀ it2 ∈ items, kw ≠ it2.key)
    (hdist : List.Pairwise
      (fun a b => ∀ ka kb, a.kwip = some ka → b.kwip = some kb → ka ≠ kb) items) :
    (∀ p ∈ out, p.2.extractionState = some esManual ∨
      p.2.extractionState = some esStale) ∧
    (∀ q ∈ strings, q.2.extractionState = some esStale →
      ∃ p ∈ out, p.2 = q.2) ∧
    (∀ q ∈ strings, q.2.extractionState ≠ some esStale →
      ∃ p ∈ out, p.2 = { q.2 with extractionState := some esManual }) := by
  unfold post_sync_restore at h
  dsimp only at h
  split at h
  · rename_i hkeys
    have hnd' : ((restore_states strings).map (fun kv => kv.1)).Nodup := by
      rw [restore_states_keys]
      exact hnodup
    have hsub : ∀ x ∈ (restore_states strings).map (fun kv => kv.1),
        x ∈ items.map (fun it => it.key) := by
      intro x hx
      unfold keySetEq at hkeys
      rw [Bool.and_eq_true] at hkeys
      have h1 := hkeys.1
      rw [List.all_eq_true] at h1
      have := h1 x hx
      simpa using this
    have hfresh0 : ∀ it ∈ items, ∀ kw, it.kwip = some kw →
        ¬ kw ∈ (restore_states strings).map (fun kv => kv.1) := by
      intro it hit kw hkw hc
      have hx := hsub kw hc
      rw [List.mem_map] at hx
      obtain ⟨it2, hit2, heq⟩ := hx
      exact hfresh it hit kw hkw it2 hit2 heq.symm
    have hperm := apply_moves_values_perm items (restore_states strings) out h
      hnd' hfresh0 hdist
    refine ⟨?_, ?_, ?_⟩
    · intro p hp
      have hpv : p.2 ∈ (restore_states strings).map (fun kv => kv.2) :=
        hperm.subset (List.mem_map.mpr ⟨p, hp, rfl⟩)
      rw [List.mem_map] at hpv
      obtain ⟨q', hq', heq⟩ := hpv
      unfold restore_states at hq'
      rw [List.mem_map] at hq'
      obtain ⟨q, _, hq⟩ := hq'
      by_cases hst : q.2.extractionState = some esStale
      · right
        rw [← heq, ← hq]
        rw [if_pos hst]
        exact hst
      · left
        rw [← heq, ← hq]
        rw [if_neg hst]
    · intro q hq hst
      have hqv : q.2 ∈ (restore_states strings).map (fun kv => kv.2) := by
        rw [List.mem_map]
        refine ⟨(q.1, q.2), ?_, rfl⟩
        unfold restore_states
        rw [List.mem_map]
        exact ⟨q, hq, by rw [if_pos hst]⟩
      have := hperm.symm.subset hqv
      rw [List.mem_map] at this
      obtain ⟨p, hp, heq⟩ := this
      exact ⟨p, hp, heq⟩
    · intro q hq hst
      have hqv : ({ q.2 with extractionState := some esManual } : XEntry) ∈
          (restore_states strings).map (fun kv => kv.2) := by
        rw [List.mem_map]
        refine ⟨(q.1, { q.2 with extractionState := some esManual }), ?_, rfl⟩
        unfold restore_states
        rw [List.mem_map]
        exact ⟨q, hq, by rw [if_neg hst]⟩
      have := hperm.symm.subset hqv
      rw [List.mem_map] at this
      obtain ⟨p, hp, heq⟩ := this
      exact ⟨p, hp, heq⟩
  · cases h

/-- C4 witness: the restore phase at a concrete catalog with one re-indexed
non-stale entry and one retained stale entry. -/
theorem C4_witness :
    (∀ p ∈ [((("b").data), (⟨some esStale, 2⟩ : XEntry)),
            ((("001:a").data), (⟨some esManual, 1⟩ : XEntry))],
      p.2.extractionState = some esManual ∨ p.2.extractionState = some esStale) ∧
    (∀ q ∈ syncStrings0, q.2.extractionState = some esStale →
      ∃ p ∈ [((("b").data), (⟨some esStale, 2⟩ : XEntry)),
             ((("001:a").data), (⟨some esManual, 1⟩ : XEntry))], p.2 = q.2) ∧
    (∀ q ∈ syncStrings0, q.2.extractionState ≠ some esStale →
      ∃ p ∈ [((("b").data), (⟨some esStale, 2⟩ : XEntry)),
             ((("001:a").data), (⟨some esManual, 1⟩ : XEntry))],
        p.2 = { q.2 with extractionState := some esManual }) :=
  C4_thm syncStrings0 syncItems0 _ (by decide) (by decide)
    (by
      intro it hit kw hkw it2 hit2
      simp only [syncItems0, List.mem_cons, List.not_mem_nil, or_false] at hit hit2
      rcases hit with rfl | rfl
      · cases hkw
        rcases hit2 with rfl | rfl
        · decide
        · decide
      · cases hkw)
    (by
      refine List.Pairwise.cons ?_ (List.Pairwise.cons ?_ List.Pairwise.nil)
      · intro b hb ka kb _ hbk
        simp only [List.mem_cons, List.not_mem_nil, or_false] at hb
        subst hb
        cases hbk
      · intro b hb
        cases hb)

/-!
## C8: the indent round trip

Structural lemmas about `splitSep`/`joinNl`, blank-line preservation, and the
behaviour of `get_indent`'s scanners on texts produced by `set_indent`.
-/

theorem splitSep_ne_nil (sep : Char) : ∀ s : Str, splitSep sep s ≠ [] := by
  intro s
  induction s with
  | nil => simp [splitSep]
  | cons c rest ih =>
    unfold splitSep
    split
    · simp
    · split
      · simp
      · simp

theorem not_mem_splitSep (sep : Char) :
    ∀ (s : Str) (l : Str), l ∈ splitSep sep s → ¬ sep ∈ l := by
  intro s
  induction s with
  | nil =>
    intro l hl
    simp [splitSep] at hl
    subst hl
    simp
  | cons c rest ih =>
    intro l hl
    unfold splitSep at hl
    by_cases hc : c = sep
    · rw [if_pos hc] at hl
      rcases List.mem_cons.mp hl with rfl | hl'
      · simp
      · exact ih l hl'
    · rw [if_neg hc] at hl
      cases hrec : splitSep sep rest with
      | nil => exact absurd hrec (splitSep_ne_nil sep rest)
      | cons l1 ls =>
        rw [hrec] at hl
        dsimp only at hl
        rcases List.mem_cons.mp hl with rfl | hl'
        · intro hmem
          rcases List.mem_cons.mp hmem with heq | hmem'
          · exact hc heq.symm
          · exact ih l1 (by rw [hrec]; exact List.mem_cons_self _ _) hmem'
        · exact ih l (by rw [hrec]; exact List.mem_cons_of_mem l1 hl')

theorem splitSep_single (sep : Char) :
    ∀ (l : Str), ¬ sep ∈ l → splitSep sep l = [l] := by
  intro l
  induction l with
  | nil => intro _; rfl
  | cons c rest ih =>
    intro h
    have hc : ¬ (c = sep) := fun hce => h (List.mem_cons.mpr (Or.inl hce.symm))
    unfold splitSep
    rw [if_neg hc, ih (fun hm => h (List.mem_cons_of_mem c hm))]

theorem splitSep_append (sep : Char) :
    ∀ (l t : Str), ¬ sep ∈ l → splitSep sep (l ++ sep :: t) = l :: splitSep sep t := by
  intro l
  induction l with
  | nil =>
    intro t _
    show splitSep sep (sep :: t) = [] :: splitSep sep t
    simp only [splitSep]
    simp
  | cons c rest ih =>
    intro t h
    have hc : ¬ (c = sep) := fun hce => h (List.mem_cons.mpr (Or.inl hce.symm))
    show splitSep sep (c :: (rest ++ sep :: t)) = (c :: rest) :: splitSep sep t
    simp only [splitSep]
    rw [if_neg hc, ih t (fun hm => h (List.mem_cons_of_mem c hm))]

theorem splitSep_joinNl :
    ∀ (L : List Str), L ≠ [] → (∀ l ∈ L, ¬ '\n' ∈ l) →
      splitSep '\n' (joinNl L) = L := by
  intro L
  induction L with
  | nil => intro h _; exact absurd rfl h
  | cons x xs ih =>
    intro _ hfree
    cases xs with
    | nil =>
      show splitSep '\n' (joinNl [x]) = [x]
      exact splitSep_single '\n' x (hfree x (List.mem_cons_self _ _))
    | cons y ys =>
      show splitSep '\n' (x ++ '\n' :: joinNl (y :: ys)) = x :: (y :: ys)
      rw [splitSep_append '\n' x (joinNl (y :: ys)) (hfree x (List.mem_cons_self _ _))]
      rw [ih (by simp) (fun l hl => hfree l (List.mem_cons_of_mem x hl))]

theorem joinNl_head (x : Str) (xs : List Str) : ∃ t, joinNl (x :: xs) = x ++ t := by
  cases xs with
  | nil => exact ⟨[], (List.append_nil x).symm⟩
  | cons y ys => exact ⟨'\n' :: joinNl (y :: ys), rfl⟩

theorem isEmptyLine_replicate_append (n : Nat) (x : Str) :
    isEmptyLine (List.replicate n ' ' ++ x) = isEmptyLine x := by
  unfold isEmptyLine
  rw [List.all_append]
  have h : (List.replicate n ' ').all pyIsSpace = true := by
    rw [List.all_eq_true]
    intro c hc
    rcases List.mem_replicate.mp hc with ⟨-, rfl⟩
    decide
  rw [h, Bool.true_and]

theorem isEmptyLine_drop (l : Str) (n : Nat) (h : isEmptyLine l = true) :
    isEmptyLine (List.drop n l) = true := by
  unfold isEmptyLine at h ⊢
  rw [List.all_eq_true] at h ⊢
  exact fun c hc => h c (List.mem_of_mem_drop hc)

theorem isEmptyLine_of_drop (l : Str) (n : Nat)
    (hsp : ∀ k, k < n → ∃ c, l.get? k = some c ∧ pyIsSpace c = true)
    (h : isEmptyLine (List.drop n l) = true) : isEmptyLine l = true := by
  unfold isEmptyLine at h ⊢
  rw [List.all_eq_true] at h ⊢
  intro c hc
  rw [← List.take_append_drop n l] at hc
  rcases List.mem_append.mp hc with hc | hc
  · rcases List.mem_iff_get?.mp hc with ⟨i, hi⟩
    rw [List.get?_eq_getElem?, List.getElem?_take] at hi
    split at hi
    · rename_i hin
      obtain ⟨c', hc', hsp'⟩ := hsp i hin
      rw [List.get?_eq_getElem?] at hc'
      rw [hc'] at hi
      exact (Option.some.inj hi) ▸ hsp'
    · cases hi
  · exact h c hc

theorem scanAt_inr_spaces (k : Nat) :
    ∀ (ls : List Str) (prev : Option Char), scanAt k ls prev = Sum.inr () →
      ∀ l ∈ ls, ∃ c, l.get? k = some c ∧ pyIsSpace c = true := by
  intro ls
  induction ls with
  | nil => intro prev _ l hl; cases hl
  | cons l0 ls ih =>
    intro prev h l hl
    unfold scanAt at h
    cases hg : l0.get? k with
    | none => rw [hg] at h; cases h
    | some c =>
      rw [hg] at h
      dsimp only at h
      split at h
      · cases h
      · split at h
        · cases h
        · rename_i hcond
          have hsp : pyIsSpace c = true := by
            by_cases hs : pyIsSpace c = true
            · exact hs
            · exact absurd (by simp [hs]) hcond
          rcases List.mem_cons.mp hl with rfl | hl'
          · exact ⟨c, hg, hsp⟩
          · exact ih (some c) h l hl'

theorem scanLoop_inv (L : List Str) :
    ∀ (fuel k0 lvl : Nat), scanLoop L fuel k0 = some lvl →
      k0 ≤ lvl ∧ (∀ k, k0 ≤ k → k < lvl → scanAt k L none = Sum.inr ()) ∧
      scanAt lvl L none = Sum.inl true := by
  intro fuel
  induction fuel with
  | zero => intro k0 lvl h; cases h
  | succ fuel ih =>
    intro k0 lvl h
    unfold scanLoop at h
    cases hsa : scanAt k0 L none with
    | inl b =>
      cases b
      · rw [hsa] at h; cases h
      · rw [hsa] at h
        dsimp only at h
        have hk : k0 = lvl := Option.some.inj h
        subst hk
        exact ⟨le_refl k0, fun k hk1 hk2 => absurd hk1 (Nat.not_le.mpr hk2), hsa⟩
    | inr u =>
      cases u
      rw [hsa] at h
      dsimp only at h
      obtain ⟨h1, h2, h3⟩ := ih (k0 + 1) lvl h
      refine ⟨Nat.le_of_succ_le h1, ?_, h3⟩
      intro k hk1 hk2
      rcases Nat.eq_or_lt_of_le hk1 with rfl | hlt
      · exact hsa
      · exact h2 k hlt hk2

theorem scanLoop_reach (L : List Str) (lvl : Nat)
    (hbr : scanAt lvl L none = Sum.inl true) :
    ∀ (fuel k0 : Nat), k0 ≤ lvl → lvl - k0 < fuel →
      (∀ k, k0 ≤ k → k < lvl → scanAt k L none = Sum.inr ()) →
      scanLoop L fuel k0 = some lvl := by
  intro fuel
  induction fuel with
  | zero => intro k0 _ hf _; exact absurd hf (Nat.not_lt_zero _)
  | succ fuel ih =>
    intro k0 hk0 hf hall
    unfold scanLoop
    rcases Nat.eq_or_lt_of_le hk0 with rfl | hlt
    · rw [hbr]
    · rw [hall k0 (le_refl k0) hlt]
      exact ih (k0 + 1) hlt (by omega)
        (fun k hk1 hk2 => hall k (Nat.le_of_succ_le hk1) hk2)

theorem scanAt_map_shift (lvl o : Nat) :
    ∀ (ls : List Str) (j : Nat) (prev : Option Char),
      scanAt (lvl + j) (ls.map (fun l => List.replicate lvl ' ' ++ List.drop o l)) prev =
        scanAt (o + j) ls prev := by
  intro ls
  induction ls with
  | nil => intro j prev; rfl
  | cons l0 ls ih =>
    intro j prev
    rw [List.map_cons]
    have hget : (List.replicate lvl ' ' ++ List.drop o l0).get? (lvl + j) =
        l0.get? (o + j) := by
      rw [List.get?_append_right (by simp), List.length_replicate,
        Nat.add_sub_cancel_left, List.get?_drop]
    unfold scanAt
    rw [hget]
    cases hg : l0.get? (o + j) with
    | none => rfl
    | some c =>
      dsimp only
      split
      · rfl
      · split
        · rfl
        · exact ih j (some c)

theorem scanAt_map_low (lvl o k : Nat) (hk : k < lvl) :
    ∀ (ls : List Str) (prev : Option Char), (prev = none ∨ prev = some ' ') →
      scanAt k (ls.map (fun l => List.replicate lvl ' ' ++ List.drop o l)) prev =
        Sum.inr () := by
  intro ls
  induction ls with
  | nil => intro prev _; rfl
  | cons l0 ls ih =>
    intro prev hprev
    rw [List.map_cons]
    unfold scanAt
    have hget : (List.replicate lvl ' ' ++ List.drop o l0).get? k = some ' ' := by
      have h0 : k < (List.replicate lvl ' ').length := by
        rw [List.length_replicate]; exact hk
      rw [List.get?_append h0, List.get?_eq_getElem?, List.getElem?_replicate,
        if_pos hk]
    rw [hget]
    dsimp only
    rcases hprev with rfl | rfl
    · rw [if_neg (by decide), if_neg (by decide)]
      exact ih (some ' ') (Or.inr rfl)
    · rw [if_neg (by decide), if_neg (by decide)]
      exact ih (some ' ') (Or.inr rfl)

/-- C8: the claimed round trip fails at indent level `0`: `get_indent` returns
`None` (not `' '`) as the indent character when the computed level is `0`, so
`get_indent(set_indent('x', 0, ' '))` is `(0, None)` rather than `(0, ' ')`. -/
theorem C8_counterexample :
    (set_indent (("x").data) 0 ' ').bind get_indent = some (0, IndentChar.nullv) ∧
      IndentChar.nullv ≠ IndentChar.chr ' ' := by
  constructor
  · decide
  · decide

/-- C8 (amended): for every indent level `≥ 1` and every text on which
`get_indent` succeeds and which contains at least one non-blank line,
`get_indent (set_indent text lvl ' ')` returns exactly `(lvl, ' ')`.  The
claim's level-`0` case is excluded (see the counterexample). -/
theorem C8_amended (s : Str) (lvl o : Nat) (ic : IndentChar)
    (hlvl : 1 ≤ lvl)
    (hgi : get_indent s = some (o, ic))
    (hnb : ∃ l, l ∈ splitSep '\n' s ∧ isEmptyLine l = false) :
    ∃ s2, set_indent s lvl ' ' = some s2 ∧
      get_indent s2 = some (lvl, IndentChar.chr ' ') := by
  have hgi0 := hgi
  obtain ⟨lnb, hlnb, hblnb⟩ := hnb
  have hs : ¬ (s = []) := by
    intro h
    subst h
    have hl : lnb = [] := by
      simp [splitSep] at hlnb
      exact hlnb
    rw [hl] at hblnb
    exact absurd hblnb (by decide)
  have hmem : lnb ∈ (splitSep '\n' s).filter (fun l => ¬ isEmptyLine l) :=
    List.mem_filter.mpr ⟨hlnb, by simp [hblnb]⟩
  cases hlines : (splitSep '\n' s).filter (fun l => ¬ isEmptyLine l) with
  | nil => rw [hlines] at hmem; cases hmem
  | cons l0 rest =>
    unfold get_indent at hgi
    rw [if_neg hs] at hgi
    dsimp only at hgi
    rw [hlines] at hgi
    dsimp only at hgi
    cases hsl : scanLoop (l0 :: rest) (l0.length + 2) 0 with
    | none => rw [hsl] at hgi; cases hgi
    | some o' =>
      rw [hsl] at hgi
      dsimp only at hgi
      have ho : o' = o := by
        by_cases h0 : o' = 0
        · rw [if_pos h0] at hgi
          rw [h0]
          exact congrArg Prod.fst (Option.some.inj hgi)
        · rw [if_neg h0] at hgi
          cases hg0 : l0.get? 0 with
          | none => rw [hg0] at hgi; cases hgi
          | some c =>
            rw [hg0] at hgi
            exact congrArg Prod.fst (Option.some.inj hgi)
      subst ho
      obtain ⟨-, hall, hbreak⟩ := scanLoop_inv (l0 :: rest) (l0.length + 2) 0 o' hsl
      have hsp : ∀ l, l ∈ (splitSep '\n' s).filter (fun l => ¬ isEmptyLine l) →
          ∀ k, k < o' → ∃ c, l.get? k = some c ∧ pyIsSpace c = true := by
        intro l hl k hk
        exact scanAt_inr_spaces k (l0 :: rest) none (hall k (Nat.zero_le k) hk) l
          (by rw [← hlines]; exact hl)
      have hblk : ∀ l ∈ splitSep '\n' s,
          isEmptyLine (List.replicate lvl ' ' ++ List.drop o' l) = isEmptyLine l := by
        intro l hl
        rw [isEmptyLine_replicate_append]
        cases hbl : isEmptyLine l with
        | true => exact isEmptyLine_drop l o' hbl
        | false =>
          cases hd : isEmptyLine (List.drop o' l) with
          | false => rfl
          | true =>
            exfalso
            have hlmem : l ∈ (splitSep '\n' s).filter (fun l => ¬ isEmptyLine l) :=
              List.mem_filter.mpr ⟨hl, by simp [hbl]⟩
            have hcontra := isEmptyLine_of_drop l o' (hsp l hlmem) hd
            rw [hbl] at hcontra
            cases hcontra
      have hfree : ∀ l ∈ splitSep '\n' s, ¬ '\n' ∈ l :=
        fun l hl => not_mem_splitSep '\n' s l hl
      have hraw : splitSep '\n' s ≠ [] := splitSep_ne_nil '\n' s
      have hfreeDrop : ∀ x ∈ (splitSep '\n' s).map (fun l => List.drop o' l),
          ¬ '\n' ∈ x := by
        intro x hx
        rcases List.mem_map.mp hx with ⟨l, hl, rfl⟩
        exact fun hm => hfree l hl (List.mem_of_mem_drop hm)
      have hsplit1 : splitSep '\n'
          (if o' > 0 then joinNl ((splitSep '\n' s).map (fun l => List.drop o' l)) else s)
          = (splitSep '\n' s).map (fun l => List.drop o' l) := by
        by_cases ho0 : o' > 0
        · rw [if_pos ho0]
          exact splitSep_joinNl _ (fun hc => hraw (List.map_eq_nil.mp hc)) hfreeDrop
        · rw [if_neg ho0]
          have h0 : o' = 0 := by omega
          subst h0
          simp [List.drop_zero]
      have hset : set_indent s lvl ' ' =
          some (joinNl ((splitSep '\n' s).map
            (fun l => List.replicate lvl ' ' ++ List.drop o' l))) := by
        unfold set_indent
        rw [hgi0]
        dsimp only
        rw [hsplit1]
        rw [if_pos (by omega : lvl > 0)]
        rw [List.map_map]
        rfl
      have hfreeF : ∀ x ∈ (splitSep '\n' s).map
          (fun l => List.replicate lvl ' ' ++ List.drop o' l), ¬ '\n' ∈ x := by
        intro x hx
        rcases List.mem_map.mp hx with ⟨l, hl, rfl⟩
        intro hm
        rcases List.mem_append.mp hm with hm | hm
        · exact absurd (List.mem_replicate.mp hm).2 (by decide)
        · exact hfree l hl (List.mem_of_mem_drop hm)
      have hsplit2 : splitSep '\n' (joinNl ((splitSep '\n' s).map
            (fun l => List.replicate lvl ' ' ++ List.drop o' l)))
          = (splitSep '\n' s).map (fun l => List.replicate lvl ' ' ++ List.drop o' l) :=
        splitSep_joinNl _ (fun hc => hraw (List.map_eq_nil.mp hc)) hfreeF
      have hs2 : ¬ (joinNl ((splitSep '\n' s).map
          (fun l => List.replicate lvl ' ' ++ List.drop o' l)) = []) := by
        cases hsp0 : splitSep '\n' s with
        | nil => exact absurd hsp0 hraw
        | cons r0 rr =>
          rw [List.map_cons]
          obtain ⟨t, ht⟩ := joinNl_head
            (List.replicate lvl ' ' ++ List.drop o' r0)
            (rr.map (fun l => List.replicate lvl ' ' ++ List.drop o' l))
          rw [ht]
          cases lvl with
          | zero => omega
          | succ n => simp [List.replicate_succ]
      have hfilter : ((splitSep '\n' s).map
            (fun l => List.replicate lvl ' ' ++ List.drop o' l)).filter
            (fun l => ¬ isEmptyLine l)
          = (l0 :: rest).map (fun l => List.replicate lvl ' ' ++ List.drop o' l) := by
        have hpt : ∀ x ∈ splitSep '\n' s,
            ((fun l => decide (¬ isEmptyLine l = true)) ∘
              (fun l => List.replicate lvl ' ' ++ List.drop o' l)) x
              = (fun l => decide (¬ isEmptyLine l = true)) x := by
          intro x hx
          simp only [Function.comp_apply]
          rw [hblk x hx]
        rw [List.filter_map, List.filter_congr hpt, hlines]
      have hbr2 : scanAt lvl ((l0 :: rest).map
          (fun l => List.replicate lvl ' ' ++ List.drop o' l)) none = Sum.inl true := by
        have hshift := scanAt_map_shift lvl o' (l0 :: rest) 0 none
        rw [Nat.add_zero, Nat.add_zero] at hshift
        rw [hshift]
        exact hbreak
      have hlow : ∀ k, 0 ≤ k → k < lvl → scanAt k ((l0 :: rest).map
          (fun l => List.replicate lvl ' ' ++ List.drop o' l)) none = Sum.inr () :=
        fun k _ hk => scanAt_map_low lvl o' k hk (l0 :: rest) none (Or.inl rfl)
      have hreach : scanLoop ((l0 :: rest).map
            (fun l => List.replicate lvl ' ' ++ List.drop o' l))
            ((List.replicate lvl ' ' ++ List.drop o' l0).length + 2) 0 = some lvl := by
        apply scanLoop_reach _ lvl hbr2 _ 0 (Nat.zero_le lvl)
        · rw [List.length_append, List.length_replicate]
          omega
        · exact hlow
      rw [List.map_cons] at hreach
      refine ⟨_, hset, ?_⟩
      unfold get_indent
      rw [if_neg hs2]
      dsimp only
      rw [hsplit2, hfilter, List.map_cons]
      dsimp only
      rw [hreach]
      dsimp only
      rw [if_neg (by omega : ¬ lvl = 0)]
      have hg0 : (List.replicate lvl ' ' ++ List.drop o' l0).get? 0 = some ' ' := by
        have h0 : 0 < (List.replicate lvl ' ').length := by
          rw [List.length_replicate]; omega
        rw [List.get?_append h0, List.get?_eq_getElem?, List.getElem?_replicate,
          if_pos (by omega : 0 < lvl)]
      rw [hg0]

/-- C8 witness: the amended round trip at level `1` on the one-line text
`"a"`. -/
theorem C8_witness :
    ∃ s2, set_indent (("a").data) 1 ' ' = some s2 ∧
      get_indent s2 = some (1, IndentChar.chr ' ') :=
  C8_amended (("a").data) 1 0 IndentChar.nullv (by decide) (by decide)
    ⟨(("a").data), by decide, by decide⟩

/-!
## C9: the url round trip

### `str.replace` scan algebra
-/

theorem isPrefixOf_self_append : ∀ (l t : Str), l.isPrefixOf (l ++ t) = true := by
  intro l t
  induction l with
  | nil => simp [List.isPrefixOf]
  | cons c rest ih => simp [List.isPrefixOf, ih]

theorem isPrefixOf_cons_neq {a b : Char} (l t : Str) (h : ¬ a = b) :
    (a :: l).isPrefixOf (b :: t) = false := by
  simp [List.isPrefixOf, h]

theorem isPrefixOf_same_append : ∀ (a b c : Str),
    (a ++ b).isPrefixOf (a ++ c) = b.isPrefixOf c := by
  intro a b c
  induction a with
  | nil => rfl
  | cons x xs ih => simp [List.isPrefixOf, ih]

theorem pyReplaceAux_fuel (old new : Str) :
    ∀ (f1 : Nat) (s : Str) (f2 : Nat), s.length ≤ f1 → s.length ≤ f2 →
      pyReplaceAux old new f1 s = pyReplaceAux old new f2 s := by
  intro f1
  induction f1 with
  | zero =>
    intro s f2 h1 _
    have hs : s = [] := List.eq_nil_of_length_eq_zero (Nat.le_zero.mp h1)
    subst hs
    cases f2 with
    | zero => rfl
    | succ f2 => rfl
  | succ f1 ih =>
    intro s f2 h1 h2
    cases s with
    | nil =>
      cases f2 with
      | zero => rfl
      | succ f2 => rfl
    | cons c rest =>
      cases f2 with
      | zero => exact absurd h2 (by simp)
      | succ f2 =>
        simp only [pyReplaceAux]
        split
        · rename_i hpre
          congr 1
          apply ih
          · have := List.length_drop (old.length - 1) rest
            simp only [List.length_cons] at h1
            omega
          · have := List.length_drop (old.length - 1) rest
            simp only [List.length_cons] at h2
            omega
        · congr 1
          apply ih
          · simp only [List.length_cons] at h1; omega
          · simp only [List.length_cons] at h2; omega

theorem pyReplace_nil (old new : Str) (h : ¬ old = []) : pyReplace [] old new = [] := by
  unfold pyReplace
  rw [if_neg h]
  rfl

theorem pyReplace_cons_skip {old : Str} (new : Str) {c : Char} {s : Str}
    (hne : ¬ old = []) (h : old.isPrefixOf (c :: s) = false) :
    pyReplace (c :: s) old new = c :: pyReplace s old new := by
  unfold pyReplace
  rw [if_neg hne, if_neg hne]
  simp only [List.length_cons, pyReplaceAux, h]
  rfl

theorem pyReplace_append_match (old new s : Str) (hne : ¬ old = []) :
    pyReplace (old ++ s) old new = new ++ pyReplace s old new := by
  obtain ⟨o0, old', rfl⟩ := List.exists_cons_of_ne_nil hne
  unfold pyReplace
  rw [if_neg hne, if_neg hne]
  show pyReplaceAux (o0 :: old') new ((o0 :: (old' ++ s)).length + 1) (o0 :: (old' ++ s)) = _
  have hpre : (o0 :: old').isPrefixOf (o0 :: (old' ++ s)) = true := by
    rw [← List.cons_append]
    exact isPrefixOf_self_append _ _
  simp only [List.length_cons, pyReplaceAux, hpre]
  rw [if_pos trivial]
  congr 1
  have hd : (old' ++ s).drop (old'.length + 1 - 1) = s := by
    simp only [Nat.add_sub_cancel]
    exact List.drop_left old' s
  rw [hd]
  apply pyReplaceAux_fuel
  · simp only [List.length_append]; omega
  · omega

theorem digitsVal_decDigitsAux : ∀ (fuel n : Nat), n ≤ fuel →
    digitsVal (decDigitsAux fuel n) = n := by
  intro fuel
  induction fuel with
  | zero =>
    intro n h
    interval_cases n
    rfl
  | succ fuel ih =>
    intro n h
    unfold decDigitsAux
    split
    · rename_i h0; rw [h0]; rfl
    · rename_i h0
      simp only [digitsVal]
      rw [ih (n / 10) (by omega)]
      omega

theorem digitChar_inj {d1 d2 : Nat} (h1 : d1 < 10) (h2 : d2 < 10)
    (h : digitChar d1 = digitChar d2) : d1 = d2 := by
  interval_cases d1 <;> interval_cases d2 <;>
    first
    | rfl
    | exact absurd h (by decide)

theorem map_digitChar_inj : ∀ (A B : List Nat), (∀ d ∈ A, d < 10) →
    (∀ d ∈ B, d < 10) → A.map digitChar = B.map digitChar → A = B := by
  intro A
  induction A with
  | nil =>
    intro B _ _ h
    cases B with
    | nil => rfl
    | cons b bs => simp at h
  | cons a as ih =>
    intro B hA hB h
    cases B with
    | nil => simp at h
    | cons b bs =>
      simp only [List.map_cons, List.cons.injEq] at h
      rw [digitChar_inj (hA a (List.mem_cons_self _ _)) (hB b (List.mem_cons_self _ _)) h.1,
        ih bs (fun d hd => hA d (List.mem_cons_of_mem _ hd))
          (fun d hd => hB d (List.mem_cons_of_mem _ hd)) h.2]

theorem decChars_inj {n m : Nat} (h : decChars n = decChars m) : n = m := by
  unfold decChars at h
  by_cases hn : n = 0 <;> by_cases hm : m = 0
  · omega
  · exfalso
    rw [if_pos hn, if_neg hm] at h
    have h' : (decDigitsAux m m).map digitChar = ['0'] := by
      have := congrArg List.reverse h
      rw [List.reverse_reverse] at this
      simpa using this.symm
    cases hd : decDigitsAux m m with
    | nil => rw [hd] at h'; cases h'
    | cons d ds =>
      rw [hd] at h'
      simp only [List.map_cons, List.cons.injEq, List.map_eq_nil] at h'
      have hd10 : d < 10 := mem_decDigitsAux_lt (by rw [hd]; exact List.mem_cons_self _ _)
      have hd0 : d = 0 := digitChar_inj hd10 (by omega) (by simpa using h'.1)
      have hv := digitsVal_decDigitsAux m m (le_refl m)
      rw [hd, h'.2, hd0] at hv
      simp [digitsVal] at hv
      exact hm hv.symm
  · exfalso
    rw [if_neg hn, if_pos hm] at h
    have h' : (decDigitsAux n n).map digitChar = ['0'] := by
      have := congrArg List.reverse h
      rw [List.reverse_reverse] at this
      simpa using this
    cases hd : decDigitsAux n n with
    | nil => rw [hd] at h'; cases h'
    | cons d ds =>
      rw [hd] at h'
      simp only [List.map_cons, List.cons.injEq, List.map_eq_nil] at h'
      have hd10 : d < 10 := mem_decDigitsAux_lt (by rw [hd]; exact List.mem_cons_self _ _)
      have hd0 : d = 0 := digitChar_inj hd10 (by omega) (by simpa using h'.1)
      have hv := digitsVal_decDigitsAux n n (le_refl n)
      rw [hd, h'.2, hd0] at hv
      simp [digitsVal] at hv
      exact hn hv.symm
  · rw [if_neg hn, if_neg hm] at h
    have h' := List.reverse_injective h
    have hAB := map_digitChar_inj (decDigitsAux n n) (decDigitsAux m m)
      (fun d hd => mem_decDigitsAux_lt hd) (fun d hd => mem_decDigitsAux_lt hd) h'
    have hv1 := digitsVal_decDigitsAux n n (le_refl n)
    have hv2 := digitsVal_decDigitsAux m m (le_refl m)
    rw [hAB, hv2] at hv1
    exact hv1.symm

theorem digits_rb_eq : ∀ (d1 d2 s1 s2 : Str), (∀ c ∈ d1, c.isDigit = true) →
    (∀ c ∈ d2, c.isDigit = true) →
    (d1 ++ rbrace :: s1).isPrefixOf (d2 ++ rbrace :: s2) = true → d1 = d2 := by
  intro d1
  induction d1 with
  | nil =>
    intro d2 s1 s2 _ hB h
    cases d2 with
    | nil => rfl
    | cons b bs =>
      exfalso
      rw [List.nil_append, List.cons_append] at h
      simp only [List.isPrefixOf, Bool.and_eq_true, beq_iff_eq] at h
      have hb := hB b (List.mem_cons_self _ _)
      rw [← h.1] at hb
      exact absurd hb (by decide)
  | cons a as ih =>
    intro d2 s1 s2 hA hB h
    cases d2 with
    | nil =>
      exfalso
      rw [List.nil_append, List.cons_append] at h
      simp only [List.isPrefixOf, Bool.and_eq_true, beq_iff_eq] at h
      have ha := hA a (List.mem_cons_self _ _)
      rw [h.1] at ha
      exact absurd ha (by decide)
    | cons b bs =>
      rw [List.cons_append, List.cons_append] at h
      simp only [List.isPrefixOf, Bool.and_eq_true, beq_iff_eq] at h
      rw [h.1, ih bs s1 s2 (fun c hc => hA c (List.mem_cons_of_mem _ hc))
        (fun c hc => hB c (List.mem_cons_of_mem _ hc)) h.2]

theorem placeholderFor_shape (n ctr : Nat) :
    ∃ tl, placeholderFor n ctr = lbrace :: tl ∧ ∀ c ∈ tl, c ≠ lbrace := by
  unfold placeholderFor
  split
  · refine ⟨'u' :: 'r' :: 'l' :: '_' :: (decChars ctr ++ [rbrace]), by simp, ?_⟩
    intro c hc
    simp only [List.mem_cons, List.mem_append, List.mem_singleton, List.not_mem_nil,
      or_false] at hc
    rcases hc with rfl | rfl | rfl | rfl | hc | rfl
    · decide
    · decide
    · decide
    · decide
    · have := decChars_isDigit c hc
      intro he
      rw [he] at this
      exact absurd this (by decide)
    · decide
  · exact ⟨'u' :: 'r' :: 'l' :: [rbrace], rfl, by decide⟩

theorem placeholder_fail {n i j : Nat} (hn : n ≠ 1) (hij : i ≠ j) (r : Str) :
    (placeholderFor n i).isPrefixOf (placeholderFor n j ++ r) = false := by
  unfold placeholderFor
  rw [if_pos hn, if_pos hn]
  simp only [List.cons_append, List.append_assoc, List.singleton_append, List.nil_append]
  simp only [List.isPrefixOf, beq_self_eq_true, Bool.true_and]
  cases hb : (decChars i ++ [rbrace]).isPrefixOf (decChars j ++ rbrace :: r) with
  | false => rfl
  | true =>
    exact absurd
      (decChars_inj (digits_rb_eq (decChars i) (decChars j) [] r
        (fun c hc => decChars_isDigit c hc) (fun c hc => decChars_isDigit c hc) hb))
      hij

theorem pyReplace_skip_chunk (phtl u : Str) :
    ∀ (x r : Str), (∀ c ∈ x, c ≠ lbrace) →
      pyReplace (x ++ r) (lbrace :: phtl) u = x ++ pyReplace r (lbrace :: phtl) u := by
  intro x
  induction x with
  | nil => intro r _; rfl
  | cons c x' ih =>
    intro r hx
    have hc : ¬ lbrace = c := fun he => (hx c (List.mem_cons_self _ _)) he.symm
    rw [List.cons_append,
      pyReplace_cons_skip u (by simp) (isPrefixOf_cons_neq _ _ hc),
      ih r (fun c' hc' => hx c' (List.mem_cons_of_mem _ hc')), List.cons_append]

theorem pyReplace_restore (phtl u : Str) (hu : ¬ u = []) :
    ∀ (fuel : Nat) (S : Str), S.length ≤ fuel → (∀ c ∈ S, c ≠ lbrace) →
      ∀ t, pyReplace (pyReplace S u (lbrace :: phtl) ++ t) (lbrace :: phtl) u =
        S ++ pyReplace t (lbrace :: phtl) u := by
  intro fuel
  induction fuel with
  | zero =>
    intro S hS _ t
    have hnil : S = [] := List.eq_nil_of_length_eq_zero (Nat.le_zero.mp hS)
    subst hnil
    rw [pyReplace_nil u (lbrace :: phtl) hu, List.nil_append, List.nil_append]
  | succ fuel ih =>
    intro S hS hbf t
    cases S with
    | nil => rw [pyReplace_nil u (lbrace :: phtl) hu, List.nil_append, List.nil_append]
    | cons c S' =>
      by_cases hpre : u.isPrefixOf (c :: S') = true
      · have hdec : u ++ (c :: S').drop u.length = c :: S' :=
          List.prefix_iff_eq_append.mp (List.isPrefixOf_iff_prefix.mp hpre)
        have hlen : ((c :: S').drop u.length).length ≤ fuel := by
          rw [List.length_drop]
          have h1 : 1 ≤ u.length := List.length_pos.mpr hu
          simp only [List.length_cons] at hS ⊢
          omega
        have hbf' : ∀ c' ∈ (c :: S').drop u.length, c' ≠ lbrace :=
          fun c' hc' => hbf c' (List.mem_of_mem_drop hc')
        rw [← hdec, pyReplace_append_match u (lbrace :: phtl) _ hu, List.append_assoc,
          pyReplace_append_match (lbrace :: phtl) u _ (by simp),
          ih ((c :: S').drop u.length) hlen hbf' t, List.append_assoc]
      · have hpre' : u.isPrefixOf (c :: S') = false := Bool.eq_false_iff.mpr hpre
        have hc : c ≠ lbrace := hbf c (List.mem_cons_self _ _)
        have hlen : S'.length ≤ fuel := by
          simp only [List.length_cons] at hS; omega
        rw [pyReplace_cons_skip (lbrace :: phtl) hu hpre', List.cons_append,
          pyReplace_cons_skip u (by simp) (isPrefixOf_cons_neq _ _ (fun he => hc he.symm)),
          ih S' hlen (fun c' hc' => hbf c' (List.mem_cons_of_mem _ hc')) t,
          List.cons_append]

theorem phClean_mono {ok ok' : Str → Prop} (hs : ∀ p, ok p → ok' p) :
    ∀ {X : Str}, PhClean ok X → PhClean ok' X := by
  intro X h
  induction h with
  | done => exact PhClean.done
  | skip c r hc _ ih => exact PhClean.skip c r hc ih
  | ins p r hp _ ih => exact PhClean.ins p r (hs p hp) ih

theorem phClean_append {ok : Str → Prop} :
    ∀ {X Y : Str}, PhClean ok X → PhClean ok Y → PhClean ok (X ++ Y) := by
  intro X Y hX hY
  induction hX with
  | done => exact hY
  | skip c r hc _ ih => exact PhClean.skip c (r ++ Y) hc ih
  | ins p r hp _ ih =>
    rw [List.append_assoc]
    exact PhClean.ins p (r ++ Y) hp ih

theorem phClean_of_lbraceFree {ok : Str → Prop} :
    ∀ (x : Str), (∀ c ∈ x, c ≠ lbrace) → PhClean ok x := by
  intro x
  induction x with
  | nil => intro _; exact PhClean.done
  | cons c r ih =>
    intro h
    exact PhClean.skip c r (h c (List.mem_cons_self _ _))
      (ih (fun c' hc' => h c' (List.mem_cons_of_mem _ hc')))

theorem phClean_pyReplaceEmpty {ok : Str → Prop} {ph : Str} (hok : ok ph) :
    ∀ (S : Str), (∀ c ∈ S, c ≠ lbrace) → PhClean ok (pyReplaceEmpty ph S) := by
  intro S
  induction S with
  | nil =>
    intro _
    have h := PhClean.ins ph [] hok PhClean.done
    rwa [List.append_nil] at h
  | cons c S' ih =>
    intro h
    show PhClean ok (ph ++ c :: pyReplaceEmpty ph S')
    exact PhClean.ins _ _ hok (PhClean.skip c _ (h c (List.mem_cons_self _ _))
      (ih (fun c' hc' => h c' (List.mem_cons_of_mem _ hc'))))

theorem pyReplace_phclean {ok : Str → Prop} {ph : Str} (u : Str) (hok : ok ph) :
    ∀ (fuel : Nat) (S : Str), S.length ≤ fuel → (∀ c ∈ S, c ≠ lbrace) →
      PhClean ok (pyReplace S u ph) := by
  by_cases hu : u = []
  · subst hu
    intro fuel S _ hbf
    unfold pyReplace
    rw [if_pos rfl]
    exact phClean_pyReplaceEmpty hok S hbf
  · intro fuel
    induction fuel with
    | zero =>
      intro S hS _
      have hnil : S = [] := List.eq_nil_of_length_eq_zero (Nat.le_zero.mp hS)
      subst hnil
      rw [pyReplace_nil u ph hu]
      exact PhClean.done
    | succ fuel ih =>
      intro S hS hbf
      cases S with
      | nil =>
        rw [pyReplace_nil u ph hu]
        exact PhClean.done
      | cons c S' =>
        by_cases hpre : u.isPrefixOf (c :: S') = true
        · have hdec : u ++ (c :: S').drop u.length = c :: S' :=
            List.prefix_iff_eq_append.mp (List.isPrefixOf_iff_prefix.mp hpre)
          have hlen : ((c :: S').drop u.length).length ≤ fuel := by
            rw [List.length_drop]
            have h1 : 1 ≤ u.length := List.length_pos.mpr hu
            simp only [List.length_cons] at hS ⊢
            omega
          rw [← hdec, pyReplace_append_match u ph _ hu]
          exact PhClean.ins ph _ hok
            (ih _ hlen (fun c' hc' => hbf c' (List.mem_of_mem_drop hc')))
        · have hlen : S'.length ≤ fuel := by
            simp only [List.length_cons] at hS; omega
          rw [pyReplace_cons_skip ph hu (Bool.eq_false_iff.mpr hpre)]
          exact PhClean.skip c _ (hbf c (List.mem_cons_self _ _))
            (ih S' hlen (fun c' hc' => hbf c' (List.mem_cons_of_mem _ hc')))

theorem pyReplace_clean_skip (phtl u : Str) (ok : Str → Prop)
    (hko : ∀ p, ok p → ∃ tl, p = lbrace :: tl ∧ (∀ c ∈ tl, c ≠ lbrace) ∧
      ∀ r, (lbrace :: phtl).isPrefixOf (p ++ r) = false) :
    ∀ {X : Str}, PhClean ok X → ∀ r,
      pyReplace (X ++ r) (lbrace :: phtl) u = X ++ pyReplace r (lbrace :: phtl) u := by
  intro X hX
  induction hX with
  | done => intro r; simp
  | skip c r' hc _ ih =>
    intro r
    rw [List.cons_append,
      pyReplace_cons_skip u (by simp) (isPrefixOf_cons_neq _ _ (fun he => hc he.symm)),
      ih r, List.cons_append]
  | ins p r' hp _ ih =>
    intro r
    obtain ⟨tl, rfl, htl, hfail⟩ := hko p hp
    have hf : (lbrace :: phtl).isPrefixOf (lbrace :: (tl ++ (r' ++ r))) = false := by
      have h := hfail (r' ++ r)
      rwa [List.cons_append] at h
    rw [List.append_assoc, List.cons_append, pyReplace_cons_skip u (by simp) hf,
      pyReplace_skip_chunk phtl u tl (r' ++ r) htl, ih r]
    simp [List.append_assoc]

theorem pyReplace_clean_id (phtl u : Str) (ok : Str → Prop)
    (hko : ∀ p, ok p → ∃ tl, p = lbrace :: tl ∧ (∀ c ∈ tl, c ≠ lbrace) ∧
      ∀ r, (lbrace :: phtl).isPrefixOf (p ++ r) = false)
    {X : Str} (hX : PhClean ok X) : pyReplace X (lbrace :: phtl) u = X := by
  have h := pyReplace_clean_skip phtl u ok hko hX []
  rw [List.append_nil, pyReplace_nil (lbrace :: phtl) u (by simp), List.append_nil] at h
  exact h

theorem pyReplace_has_ph (u ph : Str) (hu : ¬ u = []) :
    ∀ (fuel : Nat) (S : Str), S.length ≤ fuel → u <:+: S →
      ph <:+: pyReplace S u ph := by
  intro fuel
  induction fuel with
  | zero =>
    intro S hS hinf
    have hnil : S = [] := List.eq_nil_of_length_eq_zero (Nat.le_zero.mp hS)
    subst hnil
    obtain ⟨s1, t1, he⟩ := hinf
    rw [List.append_eq_nil, List.append_eq_nil] at he
    exact absurd he.1.2 hu
  | succ fuel ih =>
    intro S hS hinf
    cases S with
    | nil =>
      obtain ⟨s1, t1, he⟩ := hinf
      rw [List.append_eq_nil, List.append_eq_nil] at he
      exact absurd he.1.2 hu
    | cons c S' =>
      by_cases hpre : u.isPrefixOf (c :: S') = true
      · have hdec : u ++ (c :: S').drop u.length = c :: S' :=
          List.prefix_iff_eq_append.mp (List.isPrefixOf_iff_prefix.mp hpre)
        rw [← hdec, pyReplace_append_match u ph _ hu]
        exact ⟨[], pyReplace ((c :: S').drop u.length) u ph, by rw [List.nil_append]⟩
      · rw [pyReplace_cons_skip ph hu (Bool.eq_false_iff.mpr hpre)]
        obtain ⟨s1, t1, he⟩ := hinf
        cases s1 with
        | nil =>
          exfalso
          apply hpre
          rw [List.nil_append] at he
          rw [List.isPrefixOf_iff_prefix]
          exact ⟨t1, he⟩
        | cons x s1' =>
          rw [List.cons_append, List.cons_append] at he
          injection he with h1 h2
          have hlen : S'.length ≤ fuel := by
            simp only [List.length_cons] at hS; omega
          obtain ⟨a, b, hab⟩ := ih S' hlen ⟨s1', t1, h2⟩
          exact ⟨c :: a, b, by rw [← hab]; rfl⟩

theorem containsSub_of_infix {p s : Str} (h : p <:+: s) : containsSub p s = true := by
  unfold containsSub
  rw [List.any_eq_true]
  obtain ⟨s1, t1, rfl⟩ := h
  refine ⟨p ++ t1, ?_, ?_⟩
  · rw [List.mem_tails]
    exact ⟨s1, (List.append_assoc s1 p t1).symm⟩
  · exact isPrefixOf_self_append p t1

/-!
### Slices of the document
-/

theorem slice_split (s : Str) {a m b : Nat} (h1 : a ≤ m) (h2 : m ≤ b) :
    slice s a b = slice s a m ++ slice s m b := by
  unfold slice
  have he : b - a = (m - a) + (b - m) := by omega
  rw [he, List.take_add]
  congr 2
  rw [List.drop_drop]
  congr 1
  omega

theorem drop_decompose (s : Str) {pos q : Nat} (h : pos ≤ q) :
    s.drop pos = slice s pos q ++ s.drop q := by
  unfold slice
  conv_lhs => rw [← List.take_append_drop (q - pos) (s.drop pos)]
  congr 1
  rw [List.drop_drop]
  congr 1
  omega

theorem slice_subset {s : Str} {a b : Nat} : ∀ c ∈ slice s a b, c ∈ s :=
  fun _ hc => List.mem_of_mem_drop (List.mem_of_mem_take hc)

theorem slice_ne_nil {s : Str} {a b : Nat} (h1 : a < b) (h2 : b ≤ s.length) :
    slice s a b ≠ [] := by
  apply List.ne_nil_of_length_pos
  unfold slice
  rw [List.length_take, List.length_drop, lt_min_iff]
  constructor <;> omega

theorem slice_nested (s : Str) {a b a' b' : Nat} (h1 : a ≤ a') (h2 : a' ≤ b')
    (h3 : b' ≤ b) : slice s a' b' <:+: slice s a b := by
  refine ⟨slice s a a', slice s b' b, ?_⟩
  rw [List.append_assoc, ← slice_split s h2 h3, ← slice_split s h1 (le_trans h2 h3)]

/-!
### Reading facts off a successful match
-/

theorem get_some_lt {s : Str} {i : Nat} {c : Char} (h : s.get? i = some c) :
    i < s.length := by
  by_contra hc
  rw [List.get?_eq_none.mpr (Nat.le_of_not_lt hc)] at h
  cases h

theorem runLen_le (f : CC) (s : Str) (i : Nat) : runLen f s i ≤ s.length - i := by
  unfold runLen
  have h := (List.takeWhile_sublist (l := s.drop i) (ccMem f)).length_le
  rw [List.length_drop] at h
  exact h

theorem finditerAux_mem {s : Str} {toks : List Tok} :
    ∀ {fuel p : Nat} {m : MatchRes}, m ∈ finditerAux s toks fuel p →
      reMatchAt s toks m.mstart = some (m.mend, m.caps) ∧ m.mstart ≤ s.length := by
  intro fuel
  induction fuel with
  | zero => intro p m hm; simp [finditerAux] at hm
  | succ fuel ih =>
    intro p m hm
    unfold finditerAux at hm
    split at hm
    · cases hm
    · rename_i hple
      cases hre : reMatchAt s toks p with
      | none => rw [hre] at hm; exact ih hm
      | some eg =>
        obtain ⟨e, g⟩ := eg
        rw [hre] at hm
        rcases List.mem_cons.mp hm with rfl | hm'
        · exact ⟨hre, by show p ≤ s.length; omega⟩
        · exact ih hm'

theorem finditerAux_mend_le {s : Str} {toks : List Tok} :
    ∀ {fuel p : Nat},
      List.Pairwise (fun a b => a.mend ≤ b.mstart) (finditerAux s toks fuel p) := by
  intro fuel
  induction fuel with
  | zero => intro p; simp [finditerAux]
  | succ fuel ih =>
    intro p
    unfold finditerAux
    split
    · exact List.Pairwise.nil
    · cases hre : reMatchAt s toks p with
      | none => exact ih
      | some eg =>
        obtain ⟨e, g⟩ := eg
        refine List.Pairwise.cons ?_ ih
        intro m hm
        have h1 := finditerAux_start_ge hm
        have h2 : e ≤ max e (p + 1) := Nat.le_max_left _ _
        show e ≤ m.mstart
        exact le_trans h2 h1

theorem reStep_sound (s : Str) :
    ∀ (fuel : Nat) (stack : List Alt) (e : Nat) (g' : Caps),
      reStep s fuel stack = some (e, g') →
      ∃ a ∈ stack, Mtc s a.1 a.2.1 a.2.2 e g' := by
  intro fuel
  induction fuel with
  | zero => intro stack e g' h; cases h
  | succ fuel ih =>
    intro stack e g' h
    cases stack with
    | nil => cases h
    | cons hd alts =>
      obtain ⟨toks, i, g⟩ := hd
      cases toks with
      | nil =>
        unfold reStep at h
        dsimp only at h
        have he := Option.some.inj h
        injection he with he1 he2
        subst he1
        subst he2
        exact ⟨([], i, g), List.mem_cons_self _ _, Mtc.done i g⟩
      | cons t rest =>
        cases t with
        | lit c =>
          unfold reStep at h
          dsimp only at h
          cases hg : s.get? i with
          | none =>
            rw [hg] at h
            obtain ⟨a, ha, hm⟩ := ih alts e g' h
            exact ⟨a, List.mem_cons_of_mem _ ha, hm⟩
          | some c' =>
            rw [hg] at h
            dsimp only at h
            split at h
            · rename_i hcc
              obtain ⟨a, ha, hm⟩ := ih _ e g' h
              rcases List.mem_cons.mp ha with rfl | ha'
              · exact ⟨(.lit c :: rest, i, g), List.mem_cons_self _ _,
                  Mtc.litc (hcc ▸ hg) hm⟩
              · exact ⟨a, List.mem_cons_of_mem _ ha', hm⟩
            · obtain ⟨a, ha, hm⟩ := ih alts e g' h
              exact ⟨a, List.mem_cons_of_mem _ ha, hm⟩
        | cls f =>
          unfold reStep at h
          dsimp only at h
          cases hg : s.get? i with
          | none =>
            rw [hg] at h
            obtain ⟨a, ha, hm⟩ := ih alts e g' h
            exact ⟨a, List.mem_cons_of_mem _ ha, hm⟩
          | some c' =>
            rw [hg] at h
            dsimp only at h
            split at h
            · rename_i hcc
              obtain ⟨a, ha, hm⟩ := ih _ e g' h
              rcases List.mem_cons.mp ha with rfl | ha'
              · exact ⟨(.cls f :: rest, i, g), List.mem_cons_self _ _,
                  Mtc.clsc c' hg hcc hm⟩
              · exact ⟨a, List.mem_cons_of_mem _ ha', hm⟩
            · obtain ⟨a, ha, hm⟩ := ih alts e g' h
              exact ⟨a, List.mem_cons_of_mem _ ha, hm⟩
        | star f lz =>
          unfold reStep at h
          dsimp only at h
          obtain ⟨a, ha, hm⟩ := ih _ e g' h
          rcases List.mem_append.mp ha with ha | ha
          · rcases List.mem_map.mp ha with ⟨k, hk, rfl⟩
            have hk' : k ≤ runLen f s i := by
              split at hk
              · exact Nat.lt_succ_iff.mp (List.mem_range.mp hk)
              · exact Nat.lt_succ_iff.mp (List.mem_range.mp (List.mem_reverse.mp hk))
            exact ⟨(.star f lz :: rest, i, g), List.mem_cons_self _ _,
              Mtc.starc k hk' hm⟩
          · exact ⟨a, List.mem_cons_of_mem _ ha, hm⟩
        | opt ts =>
          unfold reStep at h
          dsimp only at h
          obtain ⟨a, ha, hm⟩ := ih _ e g' h
          rcases List.mem_cons.mp ha with rfl | ha'
          · exact ⟨(.opt ts :: rest, i, g), List.mem_cons_self _ _, Mtc.optIn hm⟩
          · rcases List.mem_cons.mp ha' with rfl | ha''
            · exact ⟨(.opt ts :: rest, i, g), List.mem_cons_self _ _, Mtc.optOut hm⟩
            · exact ⟨a, List.mem_cons_of_mem _ ha'', hm⟩
        | capOpen j =>
          unfold reStep at h
          dsimp only at h
          obtain ⟨a, ha, hm⟩ := ih _ e g' h
          rcases List.mem_cons.mp ha with rfl | ha'
          · exact ⟨(.capOpen j :: rest, i, g), List.mem_cons_self _ _, Mtc.capO hm⟩
          · exact ⟨a, List.mem_cons_of_mem _ ha', hm⟩
        | capClose j =>
          unfold reStep at h
          dsimp only at h
          obtain ⟨a, ha, hm⟩ := ih _ e g' h
          rcases List.mem_cons.mp ha with rfl | ha'
          · exact ⟨(.capClose j :: rest, i, g), List.mem_cons_self _ _, Mtc.capC hm⟩
          · exact ⟨a, List.mem_cons_of_mem _ ha', hm⟩
        | bol =>
          unfold reStep at h
          dsimp only at h
          split at h
          · rename_i hi0
            obtain ⟨a, ha, hm⟩ := ih _ e g' h
            rcases List.mem_cons.mp ha with rfl | ha'
            · exact ⟨(.bol :: rest, i, g), List.mem_cons_self _ _,
                Mtc.bolStart hi0 hm⟩
            · exact ⟨a, List.mem_cons_of_mem _ ha', hm⟩
          · cases hg : s.get? (i - 1) with
            | none =>
              rw [hg] at h
              obtain ⟨a, ha, hm⟩ := ih alts e g' h
              exact ⟨a, List.mem_cons_of_mem _ ha, hm⟩
            | some c' =>
              rw [hg] at h
              dsimp only at h
              split at h
              · rename_i hcc
                obtain ⟨a, ha, hm⟩ := ih _ e g' h
                rcases List.mem_cons.mp ha with rfl | ha'
                · exact ⟨(.bol :: rest, i, g), List.mem_cons_self _ _,
                    Mtc.bolNl (hcc ▸ hg) hm⟩
                · exact ⟨a, List.mem_cons_of_mem _ ha', hm⟩
              · obtain ⟨a, ha, hm⟩ := ih alts e g' h
                exact ⟨a, List.mem_cons_of_mem _ ha, hm⟩
        | eol =>
          unfold reStep at h
          dsimp only at h
          cases hg : s.get? i with
          | some c' =>
            rw [hg] at h
            dsimp only at h
            split at h
            · rename_i hcc
              obtain ⟨a, ha, hm⟩ := ih _ e g' h
              rcases List.mem_cons.mp ha with rfl | ha'
              · exact ⟨(.eol :: rest, i, g), List.mem_cons_self _ _,
                  Mtc.eolNl (hcc ▸ hg) hm⟩
              · exact ⟨a, List.mem_cons_of_mem _ ha', hm⟩
            · obtain ⟨a, ha, hm⟩ := ih alts e g' h
              exact ⟨a, List.mem_cons_of_mem _ ha, hm⟩
          | none =>
            rw [hg] at h
            obtain ⟨a, ha, hm⟩ := ih _ e g' h
            rcases List.mem_cons.mp ha with rfl | ha'
            · exact ⟨(.eol :: rest, i, g), List.mem_cons_self _ _, Mtc.eolEnd hg hm⟩
            · exact ⟨a, List.mem_cons_of_mem _ ha', hm⟩

theorem Mtc_bounds {s : Str} :
    ∀ {ts : List Tok} {i : Nat} {g : Caps} {e : Nat} {g' : Caps},
      Mtc s ts i g e g' → i ≤ e ∧ (i ≤ s.length → e ≤ s.length) := by
  intro ts i g e g' h
  induction h with
  | done i g => exact ⟨le_refl _, fun hh => hh⟩
  | litc hget _ ih =>
    obtain ⟨ih1, ih2⟩ := ih
    have hlt := get_some_lt hget
    exact ⟨by omega, fun _ => ih2 (by omega)⟩
  | clsc c' hget _ _ ih =>
    obtain ⟨ih1, ih2⟩ := ih
    have hlt := get_some_lt hget
    exact ⟨by omega, fun _ => ih2 (by omega)⟩
  | starc k hk _ ih =>
    obtain ⟨ih1, ih2⟩ := ih
    have hkb := le_trans hk (runLen_le _ s _)
    exact ⟨by omega, fun hi => ih2 (by omega)⟩
  | optIn _ ih => exact ih
  | optOut _ ih => exact ih
  | capO _ ih => exact ih
  | capC _ ih => exact ih
  | bolStart _ _ ih => exact ih
  | bolNl _ _ ih => exact ih
  | eolNl _ _ ih => exact ih
  | eolEnd _ _ ih => exact ih

theorem mdlink_caps {s : Str} {p e : Nat} {g : Caps}
    (h : Mtc s mdlinkToks p {} e g) :
    ∃ a b, g.s1 = some (a, b) ∧ p ≤ a ∧ a < b ∧ b ≤ e := by
  simp only [mdlinkToks] at h
  cases h
  rename_i h1 h
  cases h
  rename_i c2 h2 h2c h
  cases h
  rename_i k1 hk1 h
  cases h
  rename_i h3 h
  cases h
  rename_i h4 h
  cases h
  rename_i h
  cases h
  rename_i c5 h5 h5c h
  cases h
  rename_i k2 hk2 h
  cases h
  rename_i h
  cases h
  rename_i h6 h
  cases h
  refine ⟨_, _, rfl, ?_, ?_, ?_⟩ <;> omega

theorem mdlink_match_shape {md : Str} {m : MatchRes}
    (hm : m ∈ finditer md mdlinkToks) :
    ∃ a b, m.caps.s1 = some (a, b) ∧ m.mstart ≤ a ∧ a < b ∧ b ≤ m.mend ∧
      m.mend ≤ md.length := by
  obtain ⟨hre, hple⟩ := finditerAux_mem hm
  unfold reMatchAt at hre
  obtain ⟨a0, ha0, hmtc⟩ := reStep_sound md (reFuel md) _ _ _ hre
  rw [List.mem_singleton] at ha0
  subst ha0
  have hb := Mtc_bounds hmtc
  obtain ⟨a, b, hc, hp1, hp2, hp3⟩ := mdlink_caps hmtc
  exact ⟨a, b, hc, hp1, hp2, hp3, hb.2 hple⟩

/-!
### The reconstruction induction
-/

theorem subUrls_clean {md : Str} (hbf : braceFree md) (n : Nat) :
    ∀ (msR : List MatchRes) (ctr pos : Nat), ctr + msR.length = n + 1 →
      PhClean (phIn n ctr n) (subUrlsAux md n pos ctr msR) := by
  intro msR
  induction msR with
  | nil =>
    intro ctr pos _
    simp only [subUrlsAux]
    exact phClean_of_lbraceFree _ (fun c hc => (hbf c (List.mem_of_mem_drop hc)).1)
  | cons m rest ih =>
    intro ctr pos hctr
    simp only [List.length_cons] at hctr
    simp only [subUrlsAux]
    refine phClean_append (phClean_append ?_ ?_) ?_
    · exact phClean_of_lbraceFree _ (fun c hc => (hbf c (slice_subset c hc)).1)
    · exact pyReplace_phclean _ ⟨ctr, le_refl _, by omega, rfl⟩
        (slice md m.mstart m.mend).length _ (le_refl _)
        (fun c hc => (hbf c (slice_subset c hc)).1)
    · exact phClean_mono
        (fun p hp => by
          obtain ⟨j, hj1, hj2, hpj⟩ := hp
          exact ⟨j, by omega, hj2, hpj⟩)
        (ih (ctr + 1) m.mend (by omega))

theorem reinsAux_restore {md : Str} (hbf : braceFree md) (n : Nat) :
    ∀ (msR : List MatchRes) (ctr pos : Nat) (A : Str),
      (∀ c ∈ A, c ≠ lbrace) →
      1 ≤ ctr →
      ctr + msR.length = n + 1 →
      (∀ m ∈ msR, m ∈ finditer md mdlinkToks) →
      List.Pairwise (fun a b => a.mend ≤ b.mstart) msR →
      (∀ m ∈ msR, pos ≤ m.mstart) →
      reinsAux n ctr (A ++ subUrlsAux md n pos ctr msR) (msR.map (urlGroup md)) =
        some (A ++ md.drop pos) := by
  intro msR
  induction msR with
  | nil =>
    intro ctr pos A _ _ _ _ _ _
    simp only [subUrlsAux, List.map_nil, reinsAux]
  | cons m rest ih =>
    intro ctr pos A hA hctr1 hctr hmem hord hpos
    simp only [List.length_cons] at hctr
    obtain ⟨a, b, hcap, h1, h2, h3, h4⟩ :=
      mdlink_match_shape (hmem m (List.mem_cons_self _ _))
    have hurl : urlGroup md m = slice md a b := by
      unfold urlGroup capStr
      rw [hcap]
      rfl
    have hu' : ¬ urlGroup md m = [] := by
      rw [hurl]
      exact slice_ne_nil h2 (le_trans h3 h4)
    obtain ⟨phtl, hph, hphtl⟩ := placeholderFor_shape n ctr
    have hmm : m.mstart ≤ m.mend := le_trans h1 (le_trans (le_of_lt h2) h3)
    have hgapf : ∀ c ∈ slice md pos m.mstart, c ≠ lbrace :=
      fun c hc => (hbf c (slice_subset c hc)).1
    have hSf : ∀ c ∈ slice md m.mstart m.mend, c ≠ lbrace :=
      fun c hc => (hbf c (slice_subset c hc)).1
    have hinf : placeholderFor n ctr <:+:
        pyReplace (slice md m.mstart m.mend) (urlGroup md m) (placeholderFor n ctr) := by
      rw [hurl]
      exact pyReplace_has_ph _ _ (by rw [← hurl]; exact hu') _ _ (le_refl _)
        (slice_nested md h1 (le_of_lt h2) h3)
    have hRinf : pyReplace (slice md m.mstart m.mend) (urlGroup md m)
          (placeholderFor n ctr) <:+:
        A ++ (slice md pos m.mstart ++
          pyReplace (slice md m.mstart m.mend) (urlGroup md m) (placeholderFor n ctr) ++
          subUrlsAux md n m.mend (ctr + 1) rest) :=
      ⟨A ++ slice md pos m.mstart, subUrlsAux md n m.mend (ctr + 1) rest,
        by simp [List.append_assoc]⟩
    have hcont := containsSub_of_infix (List.IsInfix.trans hinf hRinf)
    have hko : ∀ p, phIn n (ctr + 1) n p → ∃ tl, p = lbrace :: tl ∧
        (∀ c ∈ tl, c ≠ lbrace) ∧
        ∀ r, (lbrace :: phtl).isPrefixOf (p ++ r) = false := by
      intro p hp
      obtain ⟨j, hj1, hj2, hpj⟩ := hp
      subst hpj
      obtain ⟨tlj, hpj', htlj⟩ := placeholderFor_shape n j
      refine ⟨tlj, hpj', htlj, ?_⟩
      intro r
      rw [← hph]
      exact placeholder_fail (by omega) (by omega) r
    have hcleanT : PhClean (phIn n (ctr + 1) n)
        (subUrlsAux md n m.mend (ctr + 1) rest) :=
      subUrls_clean hbf n rest (ctr + 1) m.mend (by omega)
    simp only [subUrlsAux, List.map_cons, reinsAux]
    split
    · rename_i hcpos
      have hcur : A ++ (slice md pos m.mstart ++
            pyReplace (slice md m.mstart m.mend) (urlGroup md m)
              (placeholderFor n ctr) ++
            subUrlsAux md n m.mend (ctr + 1) rest)
          = (A ++ slice md pos m.mstart) ++
            (pyReplace (slice md m.mstart m.mend) (urlGroup md m)
              (placeholderFor n ctr) ++
             subUrlsAux md n m.mend (ctr + 1) rest) := by
        simp [List.append_assoc]
      rw [hcur, hph,
        pyReplace_skip_chunk phtl (urlGroup md m) (A ++ slice md pos m.mstart) _
          (fun c hc => by
            rcases List.mem_append.mp hc with hc | hc
            · exact hA c hc
            · exact hgapf c hc),
        pyReplace_restore phtl (urlGroup md m) hu'
          (slice md m.mstart m.mend).length _ (le_refl _) hSf _,
        pyReplace_clean_id phtl (urlGroup md m) (phIn n (ctr + 1) n) hko hcleanT,
        show (A ++ slice md pos m.mstart) ++ (slice md m.mstart m.mend ++
            subUrlsAux md n m.mend (ctr + 1) rest)
          = ((A ++ slice md pos m.mstart) ++ slice md m.mstart m.mend) ++
            subUrlsAux md n m.mend (ctr + 1) rest from by simp [List.append_assoc],
        ih (ctr + 1) m.mend ((A ++ slice md pos m.mstart) ++ slice md m.mstart m.mend)
          (fun c hc => by
            rcases List.mem_append.mp hc with hc | hc
            · rcases List.mem_append.mp hc with hc | hc
              · exact hA c hc
              · exact hgapf c hc
            · exact hSf c hc)
          (by omega) (by omega)
          (fun m' hm' => hmem m' (List.mem_cons_of_mem _ hm'))
          (List.pairwise_cons.mp hord).2
          (fun m' hm' => (List.pairwise_cons.mp hord).1 m' hm')]
      have hd1 := drop_decompose md (hpos m (List.mem_cons_self _ _))
      have hd2 := drop_decompose md hmm
      rw [hd2] at hd1
      rw [hd1]
      simp [List.append_assoc]
    · rename_i hcneg
      exact absurd hcont hcneg

/-- C9: the round trip fails on a text that already contains the literal
placeholder token `\x7burl\x7d`: re-inserting the single removed target
replaces both the literal token and the inserted one, yielding `b [a](b)`
rather than the original document. -/
theorem C9_counterexample :
    replace_format_specifiers_with_markdown_urls
      (replace_markdown_urls_with_format_specifiers c9doc).md_string
      (replace_markdown_urls_with_format_specifiers c9doc).removed_urls
      = some (("b [a](b)").data) ∧ ¬ (("b [a](b)").data = c9doc) := by
  constructor
  · decide
  · decide

/-- C9 (amended): for every document containing no brace characters (so the
text cannot collide with the generated `\x7burl...\x7d` placeholders),
re-inserting the removed link targets into the extractor output reproduces
the document exactly. -/
theorem C9_amended (md : Str) (hbf : braceFree md) :
    replace_format_specifiers_with_markdown_urls
      (replace_markdown_urls_with_format_specifiers md).md_string
      (replace_markdown_urls_with_format_specifiers md).removed_urls = some md := by
  unfold replace_format_specifiers_with_markdown_urls
    replace_markdown_urls_with_format_specifiers
  dsimp only
  rw [List.length_map]
  have h := reinsAux_restore hbf (finditer md mdlinkToks).length
    (finditer md mdlinkToks) 1 0 [] (fun c hc => absurd hc (List.not_mem_nil c))
    (le_refl 1) (by omega) (fun m hm => hm) finditerAux_mend_le
    (fun m _ => Nat.zero_le _)
  rw [List.nil_append, List.nil_append, List.drop_zero] at h
  exact h

/-- C9 witness: the amended round trip on a brace-free document with two
markdown links. -/
theorem C9_witness :
    replace_format_specifiers_with_markdown_urls
      (replace_markdown_urls_with_format_specifiers c9good).md_string
      (replace_markdown_urls_with_format_specifiers c9good).removed_urls
      = some c9good :=
  C9_amended c9good (by decide)

end MMF
